import Mathlib

set_option maxRecDepth 4000

/-!
Verification of the mums encrypted-vault core (mums.py) against its
specification.

Modelling conventions (shallow embedding):

* A Python `str` is a list of Unicode code points (`PyStr := List Nat`);
  a Python `bytes` is a list of byte values (`PyBytes := List Nat`).
* `hashlib.sha256(x).digest()` and Python's `str()` rendering of a bytes
  object are external primitives; they enter as function parameters
  `sha : PyBytes → PyBytes` and `strRepr : PyBytes → PyBytes`
  (`strRepr iv` stands for the UTF-8 bytes of `str(iv)`).  Theorems state
  the contracts they rely on (digest length 32, collision resistance as
  injectivity) as hypotheses, as collision resistance is unprovable for a
  concrete function.
* The AES-256 block permutation and its inverse enter as parameters
  `E D : PyBytes → PyBytes → PyBytes` (key, 16-byte block → 16-byte block);
  CBC chaining, which mums drives through PyCrypto's stateful cipher
  object, is modelled explicitly.
* PyCrypto's `encrypt`/`decrypt` accept a Python 3 `str` through the C
  argument conversion `s#`, which substitutes the string's UTF-8 encoding;
  they raise `ValueError` when the byte length is not a multiple of the
  block size.  This is modelled by encrypting `utf8Encode chunk` and
  returning `none` on a length violation.
* Fallible operations return `Option`/`Except`; the exception raised at
  each source line is recorded in `PyErr`.
* `Random.new().read(16)` is a side effect; the fresh IV is passed as an
  explicit argument.
-/

namespace Mums

/-- Python strings: sequences of Unicode code points. -/
abbrev PyStr := List Nat

/-- Python byte strings: sequences of byte values. -/
abbrev PyBytes := List Nat

/-- All code points of the string are ASCII. -/
def Ascii (s : PyStr) : Prop := ∀ c ∈ s, c < 128

instance (s : PyStr) : Decidable (Ascii s) :=
  List.decidableBAll _ s

/-- UTF-8 encoding of one code point (the branch is chosen by magnitude,
exactly as CPython's encoder does for valid scalars). -/
def utf8EncodeChar (c : Nat) : List Nat :=
  if c < 0x80 then [c]
  else if c < 0x800 then [0xC0 + c / 64, 0x80 + c % 64]
  else if c < 0x10000 then [0xE0 + c / 4096, 0x80 + c / 64 % 64, 0x80 + c % 64]
  else [0xF0 + c / 262144, 0x80 + c / 4096 % 64, 0x80 + c / 64 % 64, 0x80 + c % 64]

/-- UTF-8 encoding of a string (`str.encode("utf-8")`). -/
def utf8Encode : PyStr → PyBytes
  | [] => []
  | c :: s => utf8EncodeChar c ++ utf8Encode s

/-- Strict UTF-8 decoding (`bytes.decode("utf-8")` with CPython's default
strict error handling): continuation bytes are checked, and overlong forms,
surrogates and values above U+10FFFF are rejected. -/
def utf8Decode : PyBytes → Option PyStr
  | [] => some []
  | b0 :: rest =>
    if b0 < 0x80 then (utf8Decode rest).map (b0 :: ·)
    else if b0 < 0xC2 then none
    else if b0 < 0xE0 then
      match rest with
      | b1 :: r =>
        if 0x80 ≤ b1 ∧ b1 < 0xC0 then
          (utf8Decode r).map (((b0 - 0xC0) * 64 + (b1 - 0x80)) :: ·)
        else none
      | [] => none
    else if b0 < 0xF0 then
      match rest with
      | b1 :: b2 :: r =>
        if (0x80 ≤ b1 ∧ b1 < 0xC0) ∧ (0x80 ≤ b2 ∧ b2 < 0xC0)
            ∧ (b0 = 0xE0 → 0xA0 ≤ b1) ∧ (b0 = 0xED → b1 < 0xA0) then
          (utf8Decode r).map (((b0 - 0xE0) * 4096 + (b1 - 0x80) * 64 + (b2 - 0x80)) :: ·)
        else none
      | _ => none
    else if b0 < 0xF5 then
      match rest with
      | b1 :: b2 :: b3 :: r =>
        if (0x80 ≤ b1 ∧ b1 < 0xC0) ∧ (0x80 ≤ b2 ∧ b2 < 0xC0) ∧ (0x80 ≤ b3 ∧ b3 < 0xC0)
            ∧ (b0 = 0xF0 → 0x90 ≤ b1) ∧ (b0 = 0xF4 → b1 < 0x90) then
          (utf8Decode r).map
            (((b0 - 0xF0) * 262144 + (b1 - 0x80) * 4096 + (b2 - 0x80) * 64 + (b3 - 0x80)) :: ·)
        else none
      | _ => none
    else none

/-- One hexadecimal digit as a code point; agrees with CPython's `%x`
formatting on inputs below 16 (and is injective on all of Nat). -/
def hexChar (n : Nat) : Nat := if n < 10 then 48 + n else 87 + n

/-- `bytes.hex()` / `hexdigest()`: each byte rendered as two lowercase hex
digits.  A genuine digest byte is below 256, so it splits as `b / 16` and `b % 16`. -/
def hexdigest : PyBytes → PyStr
  | [] => []
  | b :: r => hexChar (b / 16) :: hexChar (b % 16) :: hexdigest r

/-- `struct.pack("<Q", n)`: 8-byte little-endian encoding. -/
def packQ (n : Nat) : PyBytes :=
  [n % 256, n / 256 % 256, n / 256 ^ 2 % 256, n / 256 ^ 3 % 256,
   n / 256 ^ 4 % 256, n / 256 ^ 5 % 256, n / 256 ^ 6 % 256, n / 256 ^ 7 % 256]

/-- `struct.unpack("<Q", l)[0]` on the first 8 bytes. -/
def unpackQ (l : PyBytes) : Nat := (l.take 8).foldr (fun b acc => acc * 256 + b) 0

/-- Fuel-driven slicing helper; the fuel keeps the recursion structural so
that the definition computes inside the kernel. -/
def chunksOfAux (n : Nat) : Nat → List α → List (List α)
  | _, [] => []
  | 0, _ :: _ => []
  | fuel + 1, a :: l => (a :: l).take n :: chunksOfAux n fuel ((a :: l).drop n)

/-- chunkstring from mums.py: the successive slices `string[i : i + length]`
for `i = 0, length, 2·length, …` (also used for the successive
`infile.read(chunksize)` results in decrypt_file).  `range` with step 0
raises in Python; the n = 0 case here returns `[]` and is never used. -/
def chunkstring (s : List α) (n : Nat) : List (List α) := chunksOfAux n s.length s

/-- Bytewise xor of two equal-length byte strings (CBC whitening). -/
def xorBytes (a b : PyBytes) : PyBytes := List.zipWith (fun x y => x ^^^ y) a b

/-- CBC encryption of a sequence of 16-byte blocks: each plaintext block is
xored with the previous ciphertext block (initially the IV) before the block
cipher `E` is applied. -/
def cbcEncBlocks (E : PyBytes → PyBytes → PyBytes) (k : PyBytes) :
    PyBytes → List PyBytes → List PyBytes
  | _, [] => []
  | prev, b :: bs =>
    let c := E k (xorBytes b prev)
    c :: cbcEncBlocks E k c bs

/-- CBC decryption of a sequence of 16-byte ciphertext blocks. -/
def cbcDecBlocks (D : PyBytes → PyBytes → PyBytes) (k : PyBytes) :
    PyBytes → List PyBytes → List PyBytes
  | _, [] => []
  | prev, c :: cs => xorBytes (D k c) prev :: cbcDecBlocks D k c cs

/-- One call `encryptor.encrypt(data)` on PyCrypto's stateful CBC object:
`none` models the ValueError on data whose length is not a multiple of 16;
otherwise the ciphertext and the new carried state (the last ciphertext
block) are returned. -/
def cipherEncrypt (E : PyBytes → PyBytes → PyBytes) (k prev data : PyBytes) :
    Option (PyBytes × PyBytes) :=
  if data.length % 16 = 0 then
    some ((cbcEncBlocks E k prev (chunkstring data 16)).flatten,
      (cbcEncBlocks E k prev (chunkstring data 16)).getLastD prev)
  else none

/-- One call `decryptor.decrypt(data)` on the stateful CBC object; the
carried state is the last ciphertext block fed in. -/
def cipherDecrypt (D : PyBytes → PyBytes → PyBytes) (k prev data : PyBytes) :
    Option (PyBytes × PyBytes) :=
  if data.length % 16 = 0 then
    some ((cbcDecBlocks D k prev (chunkstring data 16)).flatten,
      (chunkstring data 16).getLastD prev)
  else none

/-- check_please from mums.py:
`sha256((str(iv) + sha256(plaintext.encode("utf-8")).hexdigest()).encode("utf-8")).digest()`.
`strRepr iv` stands for the UTF-8 bytes of `str(iv)`; the hexdigest is ASCII,
so encoding the concatenation appends its UTF-8 bytes after `strRepr iv`. -/
def check_please (sha strRepr : PyBytes → PyBytes) (iv : PyBytes) (plaintext : PyStr) :
    PyBytes :=
  sha (strRepr iv ++ utf8Encode (hexdigest (sha (utf8Encode plaintext))))

/-- The per-chunk space padding in encrypt_file:
`chunk += ' ' * (16 - len(chunk) % 16)` when the length is not a multiple
of 16 (0x20 is the ASCII space). -/
def padChunk (c : PyStr) : PyStr :=
  if c.length % 16 ≠ 0 then c ++ List.replicate (16 - c.length % 16) 32 else c

/-- The encryption loop of encrypt_file: each chunk is padded, its UTF-8
bytes are fed to the stateful CBC encryptor, and the ciphertexts are
concatenated; an empty chunk breaks the loop. -/
def encryptChunks (E : PyBytes → PyBytes → PyBytes) (k : PyBytes) :
    List PyStr → PyBytes → Option PyBytes
  | [], _ => some []
  | c :: cs, prev =>
    if c.length = 0 then some []
    else
      match cipherEncrypt E k prev (utf8Encode (padChunk c)) with
      | none => none
      | some (ct, prev') => (encryptChunks E k cs prev').map (ct ++ ·)

/-- encrypt_file from mums.py.  The written file is
`struct.pack('<Q', len(plaintext)) ++ iv ++ check ++ ciphertext`; note the
length field counts the *characters* of the Python string `plaintext`.
The AES key is `sha256(key.encode("utf-8")).digest()`. -/
def encrypt_file (sha strRepr : PyBytes → PyBytes) (E : PyBytes → PyBytes → PyBytes)
    (key plaintext : PyStr) (iv : PyBytes) (chunksize : Nat) : Option PyBytes :=
  let aesKey := sha (utf8Encode key)
  let check := check_please sha strRepr iv plaintext
  (encryptChunks E aesKey (chunkstring plaintext chunksize) iv).map
    (fun body => packQ plaintext.length ++ iv ++ check ++ body)

/-- The exceptions the modelled code can raise. -/
inductive PyErr
  | structError
  | valueError
  | unicodeDecodeError
  | contentNotEqual
  | loadFailed
  | jsonDecodeError
  | keyError
deriving DecidableEq

deriving instance DecidableEq for Except

/-- The decryption loop of decrypt_file: successive reads are fed to the
stateful CBC decryptor and the outputs concatenated. -/
def decryptChunks (D : PyBytes → PyBytes → PyBytes) (k : PyBytes) :
    List PyBytes → PyBytes → Option PyBytes
  | [], _ => some []
  | ch :: rest, prev =>
    match cipherDecrypt D k prev ch with
    | none => none
    | some (pt, prev') => (decryptChunks D k rest prev').map (pt ++ ·)

/-- decrypt_file from mums.py.  Header: 8-byte length, 16-byte IV, 32-byte
digest; remaining bytes are CBC-decrypted (chunk by chunk), the output
buffer is truncated to the stored length (BytesIO.truncate never extends),
decoded as UTF-8, and the digest is recomputed and compared.
`structError` models struct.unpack on fewer than 8 bytes and `valueError`
models AES.new on a short IV or decrypt on a length not divisible by 16. -/
def decrypt_file (sha strRepr : PyBytes → PyBytes) (D : PyBytes → PyBytes → PyBytes)
    (key : PyStr) (container : PyBytes) (chunksize : Nat) : Except PyErr PyStr :=
  let aesKey := sha (utf8Encode key)
  if container.length < 8 then .error .structError
  else
    let origsize := unpackQ (container.take 8)
    let iv := (container.drop 8).take 16
    let check := (container.drop 24).take 32
    let ct := container.drop 56
    if iv.length ≠ 16 then .error .valueError
    else
      match decryptChunks D aesKey (chunkstring ct chunksize) iv with
      | none => .error .valueError
      | some out =>
        match utf8Decode (out.take origsize) with
        | none => .error .unicodeDecodeError
        | some plaintext =>
          if check ≠ check_please sha strRepr iv plaintext then .error .contentNotEqual
          else .ok plaintext

/-- decrypt_file applied to the file encrypt_file just wrote (both with
their own chunk sizes; mums uses 24·1024 for both).  A `ValueError` raised
inside encrypt_file surfaces as the error of the round trip. -/
def roundTrip (sha strRepr : PyBytes → PyBytes) (E D : PyBytes → PyBytes → PyBytes)
    (key p : PyStr) (iv : PyBytes) (csE csD : Nat) : Except PyErr PyStr :=
  match encrypt_file sha strRepr E key p iv csE with
  | none => .error .valueError
  | some c => decrypt_file sha strRepr D key c csD

/-- A JSON value stored in the vault: a string or a list of strings (the
shapes the reference usage serializes). -/
inductive JVal
  | s (v : PyStr)
  | arr (vs : List PyStr)
deriving DecidableEq

/-- The in-memory vault mapping (a Python dict in insertion order). -/
abbrev VMap := List (PyStr × JVal)

/-- Dictionary lookup. -/
def vmLookup : VMap → PyStr → Option JVal
  | [], _ => none
  | (k, v) :: rest, n => if k = n then some v else vmLookup rest n

/-- `dict.pop(name)`: `none` models the KeyError on an absent key,
otherwise the mapping without the entry is returned. -/
def vmPop : VMap → PyStr → Option VMap
  | [], _ => none
  | (k, v) :: rest, n =>
    if k = n then some rest else (vmPop rest n).map ((k, v) :: ·)

/-- _load from mums.py.  `file = none` models a path at which no file
exists (`os.path.exists` false), which yields the empty dict.  Otherwise
the container is decrypted with the default chunk size 24·1024 and parsed;
`json.loads` is the external JSON parser, modelled as a parameter.  Only
UnicodeDecodeError is caught and re-raised as the generic
`Exception("Failed to load from vault")` (`loadFailed`); every other
exception propagates unmodified.  A JSON parse failure raises
json.JSONDecodeError (`jsonDecodeError`), which is not a
UnicodeDecodeError and therefore propagates. -/
def _load (sha strRepr : PyBytes → PyBytes) (D : PyBytes → PyBytes → PyBytes)
    (jsonLoads : PyStr → Option VMap) (key : PyStr) (file : Option PyBytes) :
    Except PyErr VMap :=
  match file with
  | none => .ok []
  | some bs =>
    match decrypt_file sha strRepr D key bs 24576 with
    | .error .unicodeDecodeError => .error .loadFailed
    | .error e => .error e
    | .ok s =>
      match jsonLoads s with
      | none => .error .jsonDecodeError
      | some data => .ok data

/-- The remove command: `_load`, then `data.pop(name)` (KeyError if the
name is absent), then encrypt_file rewrites the container from
`json.dumps` of the smaller mapping (`jsonDumps` models the external
serializer, `iv` the fresh random IV of that encryption).  An error result
means the command raised before writing, so the vault file is untouched. -/
def remove (sha strRepr : PyBytes → PyBytes) (E D : PyBytes → PyBytes → PyBytes)
    (jsonLoads : PyStr → Option VMap) (jsonDumps : VMap → PyStr)
    (key : PyStr) (file : Option PyBytes) (name : PyStr) (iv : PyBytes) :
    Except PyErr PyBytes :=
  match _load sha strRepr D jsonLoads key file with
  | .error e => .error e
  | .ok data =>
    match vmPop data name with
    | none => .error .keyError
    | some data' =>
      match encrypt_file sha strRepr E key (jsonDumps data') iv 24576 with
      | none => .error .valueError
      | some c => .ok c

/-- Modelled from the spec (refinement reference for C6): pad the whole
plaintext with spaces to the next multiple of 16 and encrypt it in a
single CBC pass, writing the same header. -/
def encryptOnePass (sha strRepr : PyBytes → PyBytes) (E : PyBytes → PyBytes → PyBytes)
    (key p : PyStr) (iv : PyBytes) : Option PyBytes :=
  (cipherEncrypt E (sha (utf8Encode key)) iv (utf8Encode (padChunk p))).map
    (fun r => packQ p.length ++ iv ++ check_please sha strRepr iv p ++ r.1)

/-- Concrete stand-in for sha256 with the right digest length; used to
instantiate counterexamples and witnesses (a constant digest). -/
def constSha : PyBytes → PyBytes := fun _ => List.replicate 32 0

/-- Concrete stand-in for sha256 that separates inputs by their first
byte; digest length 32. -/
def headSha : PyBytes → PyBytes := fun x => x.headD 0 :: List.replicate 31 0

/-- Injective encoding of a byte string into one number (Cantor pairing),
used to build an injective length-32 stand-in for sha256. -/
def listEncode : List Nat → Nat
  | [] => 0
  | a :: r => Nat.pair a (listEncode r) + 1

/-- Injective stand-in for sha256 with digest length 32. -/
def pairSha : PyBytes → PyBytes := fun x => listEncode x :: List.replicate 31 0

/-- Degenerate block cipher satisfying the CBC inversion contract (the
identity permutation for every key). -/
def idCipher : PyBytes → PyBytes → PyBytes := fun _ b => b

/-- Identity stand-in for `str()`-rendering of the IV. -/
def idRepr : PyBytes → PyBytes := fun x => x

/-- A 32-character plaintext whose first 16 characters occupy 17 UTF-8
bytes and whose whole occupies 48: chunked encryption fails at chunk
size 16 (17 is not a multiple of the block size) but succeeds at 32. -/
def c6plain : PyStr := (233 :: List.replicate 15 97) ++ (List.replicate 15 233 ++ [97])

/-- A 72-byte file that is not a valid vault: the single ciphertext block
decrypts (under the identity cipher) to a lone continuation byte 0x80,
which is not valid UTF-8. -/
def c7file : PyBytes :=
  packQ 1 ++ List.replicate 16 0 ++ List.replicate 32 0 ++ (128 :: List.replicate 15 0)

/-- The container encrypt_file writes for the two-character JSON text
(code points 123, 125) under the injective digest stand-in pairSha, the
identity cipher, key "A" and a zero IV (the normal form established by
encrypt_file_ascii). -/
def nfcont : PyBytes :=
  packQ 2 ++ List.replicate 16 0 ++ check_please pairSha idRepr (List.replicate 16 0) [123, 125]
    ++ (cbcEncBlocks idCipher (pairSha (utf8Encode [65])) (List.replicate 16 0)
        (chunkstring (padChunk [123, 125]) 16)).flatten

/-! ### Slicing lemmas -/

theorem chunksOfAux_nil {α : Type} (n f : Nat) : chunksOfAux n f ([] : List α) = [] := by
  cases f <;> rfl

theorem chunksOfAux_congr {α : Type} (n : Nat) (hn : 0 < n) :
    ∀ f₁ f₂ (l : List α), l.length ≤ f₁ → l.length ≤ f₂ →
      chunksOfAux n f₁ l = chunksOfAux n f₂ l := by
  intro f₁
  induction f₁ with
  | zero =>
    intro f₂ l h₁ _
    have hl : l = [] := List.eq_nil_of_length_eq_zero (Nat.le_zero.mp h₁)
    subst hl
    rw [chunksOfAux_nil, chunksOfAux_nil]
  | succ m ih =>
    intro f₂ l h₁ h₂
    cases l with
    | nil => rw [chunksOfAux_nil, chunksOfAux_nil]
    | cons a t =>
      cases f₂ with
      | zero => simp at h₂
      | succ k =>
        show ((a :: t).take n :: chunksOfAux n m ((a :: t).drop n)) =
          ((a :: t).take n :: chunksOfAux n k ((a :: t).drop n))
        congr 1
        simp only [List.length_cons] at h₁ h₂
        apply ih
        · simp only [List.length_drop, List.length_cons]
          omega
        · simp only [List.length_drop, List.length_cons]
          omega

theorem chunkstring_nil {α : Type} (n : Nat) : chunkstring ([] : List α) n = [] := rfl

theorem chunkstring_cons {α : Type} {n : Nat} (hn : 0 < n) (l : List α) (hl : l ≠ []) :
    chunkstring l n = l.take n :: chunkstring (l.drop n) n := by
  obtain ⟨a, t, rfl⟩ := List.exists_cons_of_ne_nil hl
  show chunksOfAux n (t.length + 1) (a :: t) = _
  rw [chunksOfAux]
  congr 1
  apply chunksOfAux_congr n hn
  · simp only [List.length_drop, List.length_cons]
    omega
  · exact le_rfl

theorem chunkstring_single {α : Type} {n : Nat} (hn : 0 < n) (l : List α) (hl : l ≠ [])
    (hle : l.length ≤ n) : chunkstring l n = [l] := by
  rw [chunkstring_cons hn l hl, List.take_of_length_le hle, List.drop_eq_nil_of_le hle,
    chunkstring_nil]

theorem chunkstring_flatten_aux {α : Type} {n : Nat} (hn : 0 < n) :
    ∀ (N : Nat) (l : List α), l.length ≤ N → (chunkstring l n).flatten = l := by
  intro N
  induction N with
  | zero =>
    intro l hl
    have : l = [] := List.eq_nil_of_length_eq_zero (Nat.le_zero.mp hl)
    subst this
    rfl
  | succ N ih =>
    intro l hl
    rcases eq_or_ne l [] with rfl | hne
    · rfl
    · rw [chunkstring_cons hn l hne, List.flatten_cons,
        ih (l.drop n) (by simp only [List.length_drop]; omega)]
      exact List.take_append_drop n l

theorem chunkstring_flatten {α : Type} {n : Nat} (hn : 0 < n) (l : List α) :
    (chunkstring l n).flatten = l :=
  chunkstring_flatten_aux hn l.length l le_rfl

theorem chunkstring_append_aux {α : Type} {n : Nat} (hn : 0 < n) :
    ∀ (N : Nat) (a b : List α), a.length ≤ N → n ∣ a.length →
      chunkstring (a ++ b) n = chunkstring a n ++ chunkstring b n := by
  intro N
  induction N with
  | zero =>
    intro a b ha _
    have : a = [] := List.eq_nil_of_length_eq_zero (Nat.le_zero.mp ha)
    subst this
    simp [chunkstring_nil]
  | succ N ih =>
    intro a b ha hdvd
    rcases eq_or_ne a [] with rfl | hne
    · simp [chunkstring_nil]
    · have hna : n ≤ a.length :=
        Nat.le_of_dvd (List.length_pos.mpr hne) hdvd
      rcases eq_or_ne b [] with rfl | hbne
      · simp [chunkstring_nil]
      · have hne' : a ++ b ≠ [] := by simp [hne]
        rw [chunkstring_cons hn (a ++ b) hne', chunkstring_cons hn a hne,
          List.take_append_of_le_length hna, List.drop_append_of_le_length hna]
        simp only [List.cons_append]
        congr 1
        apply ih
        · simp only [List.length_drop]; omega
        · simp only [List.length_drop]
          exact Nat.dvd_sub' hdvd dvd_rfl

theorem chunkstring_append {α : Type} {n : Nat} (hn : 0 < n) (a b : List α)
    (hdvd : n ∣ a.length) :
    chunkstring (a ++ b) n = chunkstring a n ++ chunkstring b n :=
  chunkstring_append_aux hn a.length a b le_rfl hdvd

theorem chunkstring_of_blocks {α : Type} :
    ∀ (bs : List (List α)), (∀ b ∈ bs, b.length = 16) →
      chunkstring bs.flatten 16 = bs := by
  intro bs
  induction bs with
  | nil => intro _; rfl
  | cons b rest ih =>
    intro hb
    have hb16 : b.length = 16 := hb b (by simp)
    have hbne : b ≠ [] := by
      intro h
      rw [h] at hb16
      simp at hb16
    rw [List.flatten_cons, chunkstring_append (by norm_num) b rest.flatten (by rw [hb16]),
      chunkstring_single (by norm_num) b hbne (by rw [hb16]),
      ih (fun x hx => hb x (by simp [hx]))]
    rfl

theorem mem_chunkstring_mod_aux {α : Type} {n : Nat} (hn : 0 < n) (h16n : n % 16 = 0) :
    ∀ (N : Nat) (l : List α), l.length ≤ N → l.length % 16 = 0 →
      ∀ c ∈ chunkstring l n, c.length % 16 = 0 := by
  intro N
  induction N with
  | zero =>
    intro l hl _
    have : l = [] := List.eq_nil_of_length_eq_zero (Nat.le_zero.mp hl)
    subst this
    simp [chunkstring_nil]
  | succ N ih =>
    intro l hl hl16 c hc
    rcases eq_or_ne l [] with rfl | hne
    · simp [chunkstring_nil] at hc
    · rw [chunkstring_cons hn l hne] at hc
      rcases List.mem_cons.mp hc with rfl | hc'
    -- first chunk: length is min n l.length, both ≡ 0 (mod 16)
      · simp only [List.length_take]
        rcases Nat.le_total n l.length with h | h
        · rw [min_eq_left h]
          exact h16n
        · rw [min_eq_right h]
          exact hl16
      · exact ih (l.drop n) (by simp only [List.length_drop]; omega)
          (by simp only [List.length_drop]; omega) c hc'

theorem mem_chunkstring_mod {α : Type} {n : Nat} (hn : 0 < n) (h16n : n % 16 = 0)
    (l : List α) (hl16 : l.length % 16 = 0) :
    ∀ c ∈ chunkstring l n, c.length % 16 = 0 :=
  mem_chunkstring_mod_aux hn h16n l.length l le_rfl hl16

/-! ### Padding lemmas -/

theorem padChunk_length_mod (c : PyStr) : (padChunk c).length % 16 = 0 := by
  unfold padChunk
  split
  · simp only [List.length_append, List.length_replicate]
    omega
  · omega

theorem padChunk_of_mod {c : PyStr} (h : c.length % 16 = 0) : padChunk c = c := by
  unfold padChunk
  simp [h]

theorem padChunk_append {a b : PyStr} (h : a.length % 16 = 0) :
    padChunk (a ++ b) = a ++ padChunk b := by
  have hlen : (a ++ b).length % 16 = b.length % 16 := by
    simp only [List.length_append]
    omega
  unfold padChunk
  rcases eq_or_ne (b.length % 16) 0 with h0 | h0
  · rw [if_neg (show ¬((a ++ b).length % 16 ≠ 0) from fun hc => hc (by omega)),
      if_neg (show ¬(b.length % 16 ≠ 0) from fun hc => hc h0)]
  · rw [if_pos (show (a ++ b).length % 16 ≠ 0 by omega), if_pos h0, hlen,
      List.append_assoc]

theorem padChunk_ascii {c : PyStr} (h : Ascii c) : Ascii (padChunk c) := by
  unfold padChunk
  split
  · intro x hx
    rcases List.mem_append.mp hx with hx | hx
    · exact h x hx
    · have := List.eq_of_mem_replicate hx
      omega
  · exact h

theorem padChunk_take (c : PyStr) : (padChunk c).take c.length = c := by
  unfold padChunk
  split
  · exact List.take_left' rfl
  · exact List.take_of_length_le le_rfl

theorem length_le_padChunk (c : PyStr) : c.length ≤ (padChunk c).length := by
  unfold padChunk
  split
  · simp only [List.length_append, List.length_replicate]
    omega
  · exact le_rfl

theorem padChunk_length_lt (c : PyStr) : (padChunk c).length < c.length + 16 := by
  unfold padChunk
  split
  · simp only [List.length_append, List.length_replicate]
    omega
  · omega

/-! ### UTF-8 lemmas -/

theorem utf8EncodeChar_ascii {c : Nat} (h : c < 128) : utf8EncodeChar c = [c] := by
  unfold utf8EncodeChar
  rw [if_pos (by omega)]

theorem utf8Encode_ascii {s : PyStr} (h : Ascii s) : utf8Encode s = s := by
  induction s with
  | nil => rfl
  | cons c t ih =>
    show utf8EncodeChar c ++ utf8Encode t = c :: t
    rw [utf8EncodeChar_ascii (h c (by simp)), ih (fun x hx => h x (by simp [hx]))]
    rfl

theorem utf8Encode_append (a b : PyStr) :
    utf8Encode (a ++ b) = utf8Encode a ++ utf8Encode b := by
  induction a with
  | nil => rfl
  | cons c t ih =>
    show utf8EncodeChar c ++ utf8Encode (t ++ b) = (utf8EncodeChar c ++ utf8Encode t) ++ _
    rw [ih, List.append_assoc]

theorem utf8Decode_cons (b0 : Nat) (rest : PyBytes) :
    utf8Decode (b0 :: rest) =
      if b0 < 0x80 then (utf8Decode rest).map (b0 :: ·)
      else if b0 < 0xC2 then none
      else if b0 < 0xE0 then
        match rest with
        | b1 :: r =>
          if 0x80 ≤ b1 ∧ b1 < 0xC0 then
            (utf8Decode r).map (((b0 - 0xC0) * 64 + (b1 - 0x80)) :: ·)
          else none
        | [] => none
      else if b0 < 0xF0 then
        match rest with
        | b1 :: b2 :: r =>
          if (0x80 ≤ b1 ∧ b1 < 0xC0) ∧ (0x80 ≤ b2 ∧ b2 < 0xC0)
              ∧ (b0 = 0xE0 → 0xA0 ≤ b1) ∧ (b0 = 0xED → b1 < 0xA0) then
            (utf8Decode r).map (((b0 - 0xE0) * 4096 + (b1 - 0x80) * 64 + (b2 - 0x80)) :: ·)
          else none
        | _ => none
      else if b0 < 0xF5 then
        match rest with
        | b1 :: b2 :: b3 :: r =>
          if (0x80 ≤ b1 ∧ b1 < 0xC0) ∧ (0x80 ≤ b2 ∧ b2 < 0xC0) ∧ (0x80 ≤ b3 ∧ b3 < 0xC0)
              ∧ (b0 = 0xF0 → 0x90 ≤ b1) ∧ (b0 = 0xF4 → b1 < 0x90) then
            (utf8Decode r).map
              (((b0 - 0xF0) * 262144 + (b1 - 0x80) * 4096 + (b2 - 0x80) * 64 + (b3 - 0x80)) :: ·)
          else none
        | _ => none
      else none := by
  rcases rest with _ | ⟨b1, _ | ⟨b2, _ | ⟨b3, r⟩⟩⟩ <;> rfl

theorem utf8Decode_ascii {l : PyBytes} (h : ∀ b ∈ l, b < 128) :
    utf8Decode l = some l := by
  induction l with
  | nil => rfl
  | cons b t ih =>
    rw [utf8Decode_cons, if_pos (h b (by simp)), ih (fun x hx => h x (by simp [hx]))]
    rfl

/-! ### Xor lemmas -/

theorem xorBytes_length (a b : PyBytes) : (xorBytes a b).length = min a.length b.length := by
  simp [xorBytes, List.length_zipWith]

theorem xorBytes_cancel : ∀ (a b : PyBytes), a.length ≤ b.length →
    xorBytes (xorBytes a b) b = a := by
  intro a
  induction a with
  | nil => intro b _; rfl
  | cons x xs ih =>
    intro b hb
    cases b with
    | nil => simp at hb
    | cons y ys =>
      show (x ^^^ y ^^^ y) :: xorBytes (xorBytes xs ys) ys = x :: xs
      rw [Nat.xor_cancel_right, ih ys (by simpa using hb)]

theorem xorBytes_right_injective {a b p : PyBytes} (ha : a.length ≤ p.length)
    (hb : b.length ≤ p.length) (h : xorBytes a p = xorBytes b p) : a = b := by
  have h1 : xorBytes (xorBytes a p) p = xorBytes (xorBytes b p) p := by rw [h]
  rwa [xorBytes_cancel a p ha, xorBytes_cancel b p hb] at h1

/-! ### CBC lemmas -/

section CBC

variable (E D : PyBytes → PyBytes → PyBytes) (k : PyBytes)

theorem cbcEncBlocks_cons (prev b : PyBytes) (bs : List PyBytes) :
    cbcEncBlocks E k prev (b :: bs) =
      E k (xorBytes b prev) :: cbcEncBlocks E k (E k (xorBytes b prev)) bs := rfl

theorem cbcDecBlocks_cons (prev c : PyBytes) (cs : List PyBytes) :
    cbcDecBlocks D k prev (c :: cs) =
      xorBytes (D k c) prev :: cbcDecBlocks D k c cs := rfl

theorem cbcEncBlocks_append : ∀ (xs ys : List PyBytes) (prev : PyBytes),
    cbcEncBlocks E k prev (xs ++ ys) =
      cbcEncBlocks E k prev xs ++
        cbcEncBlocks E k ((cbcEncBlocks E k prev xs).getLastD prev) ys := by
  intro xs
  induction xs with
  | nil => intro ys prev; rfl
  | cons b bs ih =>
    intro ys prev
    simp only [List.cons_append, cbcEncBlocks_cons, List.getLastD_cons]
    rw [ih]

theorem cbcDecBlocks_append : ∀ (xs ys : List PyBytes) (prev : PyBytes),
    cbcDecBlocks D k prev (xs ++ ys) =
      cbcDecBlocks D k prev xs ++ cbcDecBlocks D k (xs.getLastD prev) ys := by
  intro xs
  induction xs with
  | nil => intro ys prev; rfl
  | cons c cs ih =>
    intro ys prev
    simp only [List.cons_append, cbcDecBlocks_cons, List.getLastD_cons]
    rw [ih]

theorem cbcEncBlocks_length : ∀ (bs : List PyBytes) (prev : PyBytes),
    (cbcEncBlocks E k prev bs).length = bs.length := by
  intro bs
  induction bs with
  | nil => intro prev; rfl
  | cons b t ih => intro prev; simp [cbcEncBlocks_cons, ih]

theorem cbcDecBlocks_length : ∀ (cs : List PyBytes) (prev : PyBytes),
    (cbcDecBlocks D k prev cs).length = cs.length := by
  intro cs
  induction cs with
  | nil => intro prev; rfl
  | cons c t ih => intro prev; simp [cbcDecBlocks_cons, ih]

theorem cbcEncBlocks_blocks16 (hE16 : ∀ b, b.length = 16 → (E k b).length = 16) :
    ∀ (bs : List PyBytes) (prev : PyBytes), prev.length = 16 →
      (∀ b ∈ bs, b.length = 16) → ∀ c ∈ cbcEncBlocks E k prev bs, c.length = 16 := by
  intro bs
  induction bs with
  | nil => intro prev _ _ c hc; simp [cbcEncBlocks] at hc
  | cons b t ih =>
    intro prev hprev hbs c hc
    have hb : b.length = 16 := hbs b (by simp)
    have hxor : (xorBytes b prev).length = 16 := by
      rw [xorBytes_length, hb, hprev]
      exact min_self 16
    have hc16 : (E k (xorBytes b prev)).length = 16 := hE16 _ hxor
    rw [cbcEncBlocks_cons] at hc
    rcases List.mem_cons.mp hc with rfl | hc'
    · exact hc16
    · exact ih _ hc16 (fun x hx => hbs x (by simp [hx])) c hc'

theorem cbcDecBlocks_blocks16 (hD16 : ∀ c, c.length = 16 → (D k c).length = 16) :
    ∀ (cs : List PyBytes) (prev : PyBytes), prev.length = 16 →
      (∀ c ∈ cs, c.length = 16) → ∀ o ∈ cbcDecBlocks D k prev cs, o.length = 16 := by
  intro cs
  induction cs with
  | nil => intro prev _ _ o ho; simp [cbcDecBlocks] at ho
  | cons c t ih =>
    intro prev hprev hcs o ho
    have hc : c.length = 16 := hcs c (by simp)
    rw [cbcDecBlocks_cons] at ho
    rcases List.mem_cons.mp ho with rfl | ho'
    · rw [xorBytes_length, hD16 _ hc, hprev]
      rfl
    · exact ih _ hc (fun x hx => hcs x (by simp [hx])) o ho'

theorem cbcDec_cbcEnc (kE kD : PyBytes) (hED : ∀ b, b.length = 16 → D kD (E kE b) = b)
    (hE16 : ∀ b, b.length = 16 → (E kE b).length = 16) :
    ∀ (bs : List PyBytes) (prev : PyBytes), prev.length = 16 →
      (∀ b ∈ bs, b.length = 16) →
      cbcDecBlocks D kD prev (cbcEncBlocks E kE prev bs) = bs := by
  intro bs
  induction bs with
  | nil => intro prev _ _; rfl
  | cons b t ih =>
    intro prev hprev hbs
    have hb : b.length = 16 := hbs b (by simp)
    have hxor : (xorBytes b prev).length = 16 := by
      rw [xorBytes_length, hb, hprev]
      exact min_self 16
    rw [cbcEncBlocks_cons, cbcDecBlocks_cons, hED _ hxor,
      xorBytes_cancel b prev (by omega),
      ih _ (hE16 _ hxor) (fun x hx => hbs x (by simp [hx]))]

end CBC

/-! ### Length bookkeeping for block lists -/

theorem flatten_blocks16_length : ∀ (bs : List PyBytes),
    (∀ b ∈ bs, b.length = 16) → bs.flatten.length = 16 * bs.length := by
  intro bs
  induction bs with
  | nil => intro _; rfl
  | cons b t ih =>
    intro h
    rw [List.flatten_cons, List.length_append, h b (by simp),
      ih (fun x hx => h x (by simp [hx]))]
    simp only [List.length_cons]
    ring

theorem getLastD_length16 : ∀ (bs : List PyBytes) (prev : PyBytes), prev.length = 16 →
    (∀ b ∈ bs, b.length = 16) → (bs.getLastD prev).length = 16 := by
  intro bs
  induction bs with
  | nil => intro prev hp _; exact hp
  | cons b t ih =>
    intro prev _ h
    rw [List.getLastD_cons]
    exact ih b (h b (by simp)) (fun x hx => h x (by simp [hx]))

/-! ### Injectivity of the digest ingredients -/

theorem hexChar_injective : Function.Injective hexChar := by
  intro a b h
  unfold hexChar at h
  split at h <;> split at h <;> omega

theorem hexdigest_injective : Function.Injective hexdigest := by
  intro a
  induction a with
  | nil =>
    intro b h
    cases b with
    | nil => rfl
    | cons y ys => simp [hexdigest] at h
  | cons x xs ih =>
    intro b h
    cases b with
    | nil => simp [hexdigest] at h
    | cons y ys =>
      simp only [hexdigest, List.cons.injEq] at h
      obtain ⟨h1, h2, h3⟩ := h
      have hd : x / 16 = y / 16 := hexChar_injective h1
      have hm : x % 16 = y % 16 := hexChar_injective h2
      have hxy : x = y := by omega
      rw [hxy, ih h3]

theorem utf8EncodeChar_ne_nil (c : Nat) : utf8EncodeChar c ≠ [] := by
  unfold utf8EncodeChar
  split_ifs <;> simp

theorem utf8EncodeChar_prefix {c c' : Nat} {t t' : List Nat}
    (h : utf8EncodeChar c ++ t = utf8EncodeChar c' ++ t') : c = c' ∧ t = t' := by
  unfold utf8EncodeChar at h
  split_ifs at h <;>
    simp only [List.cons_append, List.nil_append, List.cons.injEq] at h <;>
    first
    | (obtain ⟨e1, e2⟩ := h
       first
       | exact ⟨by omega, e2⟩
       | (exfalso; omega))
    | (obtain ⟨e1, e2, e3⟩ := h
       first
       | exact ⟨by omega, e3⟩
       | (exfalso; omega))
    | (obtain ⟨e1, e2, e3, e4⟩ := h
       first
       | exact ⟨by omega, e4⟩
       | (exfalso; omega))
    | (obtain ⟨e1, e2, e3, e4, e5⟩ := h
       first
       | exact ⟨by omega, e5⟩
       | (exfalso; omega))

theorem utf8Encode_injective : Function.Injective utf8Encode := by
  intro a
  induction a with
  | nil =>
    intro b h
    cases b with
    | nil => rfl
    | cons c t =>
      exfalso
      have : utf8EncodeChar c ++ utf8Encode t = [] := h.symm
      rcases List.append_eq_nil.mp this with ⟨h1, _⟩
      exact utf8EncodeChar_ne_nil c h1
  | cons c t ih =>
    intro b h
    cases b with
    | nil =>
      exfalso
      have : utf8EncodeChar c ++ utf8Encode t = [] := h
      rcases List.append_eq_nil.mp this with ⟨h1, _⟩
      exact utf8EncodeChar_ne_nil c h1
    | cons c' t' =>
      obtain ⟨hc, ht⟩ := utf8EncodeChar_prefix (h : _ ++ _ = _ ++ _)
      rw [hc, ih ht]

theorem check_please_injective {sha strRepr : PyBytes → PyBytes}
    (hsha : Function.Injective sha) (iv : PyBytes) {p1 p2 : PyStr}
    (h : check_please sha strRepr iv p1 = check_please sha strRepr iv p2) : p1 = p2 := by
  unfold check_please at h
  have h1 := List.append_cancel_left (hsha h)
  have h2 := hexdigest_injective (utf8Encode_injective h1)
  exact utf8Encode_injective (hsha h2)

/-! ### Properties of the concrete stand-ins -/

theorem listEncode_injective : Function.Injective listEncode := by
  intro a
  induction a with
  | nil =>
    intro b h
    cases b with
    | nil => rfl
    | cons y ys => simp [listEncode] at h
  | cons x xs ih =>
    intro b h
    cases b with
    | nil => simp [listEncode] at h
    | cons y ys =>
      simp only [listEncode, Nat.add_right_cancel_iff] at h
      obtain ⟨hx, hr⟩ := Nat.pair_eq_pair.mp h
      rw [hx, ih hr]

theorem pairSha_injective : Function.Injective pairSha := by
  intro a b h
  exact listEncode_injective (List.cons.injEq _ _ _ _ ▸ h).1

theorem pairSha_length (x : PyBytes) : (pairSha x).length = 32 := rfl

theorem constSha_length (x : PyBytes) : (constSha x).length = 32 := rfl

theorem headSha_length (x : PyBytes) : (headSha x).length = 32 := rfl

/-! ### More slicing facts -/

theorem mem_chunkstring_subset_aux {α : Type} {n : Nat} (hn : 0 < n) :
    ∀ (N : Nat) (l : List α), l.length ≤ N →
      ∀ c ∈ chunkstring l n, ∀ x ∈ c, x ∈ l := by
  intro N
  induction N with
  | zero =>
    intro l hl
    have : l = [] := List.eq_nil_of_length_eq_zero (Nat.le_zero.mp hl)
    subst this
    simp [chunkstring_nil]
  | succ N ih =>
    intro l hl c hc x hx
    rcases eq_or_ne l [] with rfl | hne
    · simp [chunkstring_nil] at hc
    · rw [chunkstring_cons hn l hne] at hc
      rcases List.mem_cons.mp hc with rfl | hc'
      · exact List.mem_of_mem_take hx
      · exact List.mem_of_mem_drop
          (ih (l.drop n) (by simp only [List.length_drop]; omega) c hc' x hx)

theorem mem_chunkstring_subset {α : Type} {n : Nat} (hn : 0 < n) (l : List α) :
    ∀ c ∈ chunkstring l n, ∀ x ∈ c, x ∈ l :=
  mem_chunkstring_subset_aux hn l.length l le_rfl

theorem mem_chunkstring_ne_nil_aux {α : Type} {n : Nat} (hn : 0 < n) :
    ∀ (N : Nat) (l : List α), l.length ≤ N → ∀ c ∈ chunkstring l n, c ≠ [] := by
  intro N
  induction N with
  | zero =>
    intro l hl
    have : l = [] := List.eq_nil_of_length_eq_zero (Nat.le_zero.mp hl)
    subst this
    simp [chunkstring_nil]
  | succ N ih =>
    intro l hl c hc
    rcases eq_or_ne l [] with rfl | hne
    · simp [chunkstring_nil] at hc
    · rw [chunkstring_cons hn l hne] at hc
      rcases List.mem_cons.mp hc with rfl | hc'
      · intro h0
        rcases List.take_eq_nil_iff.mp h0 with h | h
        · omega
        · exact hne h
      · exact ih (l.drop n) (by simp only [List.length_drop]; omega) c hc'

theorem mem_chunkstring_ne_nil {α : Type} {n : Nat} (hn : 0 < n) (l : List α) :
    ∀ c ∈ chunkstring l n, c ≠ [] :=
  mem_chunkstring_ne_nil_aux hn l.length l le_rfl

theorem mem_chunkstring_length_le_aux {α : Type} {n : Nat} (hn : 0 < n) :
    ∀ (N : Nat) (l : List α), l.length ≤ N → ∀ c ∈ chunkstring l n, c.length ≤ n := by
  intro N
  induction N with
  | zero =>
    intro l hl
    have : l = [] := List.eq_nil_of_length_eq_zero (Nat.le_zero.mp hl)
    subst this
    simp [chunkstring_nil]
  | succ N ih =>
    intro l hl c hc
    rcases eq_or_ne l [] with rfl | hne
    · simp [chunkstring_nil] at hc
    · rw [chunkstring_cons hn l hne] at hc
      rcases List.mem_cons.mp hc with rfl | hc'
      · simp only [List.length_take]
        omega
      · exact ih (l.drop n) (by simp only [List.length_drop]; omega) c hc'

theorem mem_chunkstring_length_le {α : Type} {n : Nat} (hn : 0 < n) (l : List α) :
    ∀ c ∈ chunkstring l n, c.length ≤ n :=
  mem_chunkstring_length_le_aux hn l.length l le_rfl

theorem chunkstring16_blocks {l : PyBytes} (h16 : l.length % 16 = 0) :
    ∀ c ∈ chunkstring l 16, c.length = 16 := by
  intro c hc
  have h1 : c.length % 16 = 0 :=
    mem_chunkstring_mod (by norm_num) (by norm_num) l h16 c hc
  have h2 : c.length ≤ 16 := mem_chunkstring_length_le (by norm_num) l c hc
  have h3 : c ≠ [] := mem_chunkstring_ne_nil (by norm_num) l c hc
  have h4 : 0 < c.length := List.length_pos.mpr h3
  omega

/-! ### Normal forms for the encryption and decryption loops -/

theorem encryptChunks_cons (E : PyBytes → PyBytes → PyBytes) (K : PyBytes)
    (c : PyStr) (cs : List PyStr) (prev : PyBytes) :
    encryptChunks E K (c :: cs) prev =
      if c.length = 0 then some []
      else
        match cipherEncrypt E K prev (utf8Encode (padChunk c)) with
        | none => none
        | some (ct, prev') => (encryptChunks E K cs prev').map (ct ++ ·) := rfl

theorem decryptChunks_cons (D : PyBytes → PyBytes → PyBytes) (K : PyBytes)
    (ch : PyBytes) (rest : List PyBytes) (prev : PyBytes) :
    decryptChunks D K (ch :: rest) prev =
      match cipherDecrypt D K prev ch with
      | none => none
      | some (pt, prev') => (decryptChunks D K rest prev').map (pt ++ ·) := rfl

theorem cipherEncrypt_of_mod (E : PyBytes → PyBytes → PyBytes) (K prev data : PyBytes)
    (h : data.length % 16 = 0) :
    cipherEncrypt E K prev data =
      some ((cbcEncBlocks E K prev (chunkstring data 16)).flatten,
        (cbcEncBlocks E K prev (chunkstring data 16)).getLastD prev) := by
  unfold cipherEncrypt
  rw [if_pos h]

theorem cipherDecrypt_of_mod (D : PyBytes → PyBytes → PyBytes) (K prev data : PyBytes)
    (h : data.length % 16 = 0) :
    cipherDecrypt D K prev data =
      some ((cbcDecBlocks D K prev (chunkstring data 16)).flatten,
        (chunkstring data 16).getLastD prev) := by
  unfold cipherDecrypt
  rw [if_pos h]

theorem encryptChunks_eq (E : PyBytes → PyBytes → PyBytes) (K : PyBytes) :
    ∀ (chunks : List PyStr) (prev : PyBytes),
      (∀ c ∈ chunks, c ≠ [] ∧ Ascii c) →
      encryptChunks E K chunks prev =
        some ((cbcEncBlocks E K prev
          (chunkstring ((chunks.map padChunk).flatten) 16)).flatten) := by
  intro chunks
  induction chunks with
  | nil => intro prev _; rfl
  | cons c cs ih =>
    intro prev h
    obtain ⟨hne, hasc⟩ := h c (by simp)
    have hlen0 : ¬(c.length = 0) := fun h0 => hne (List.eq_nil_of_length_eq_zero h0)
    have hdata : utf8Encode (padChunk c) = padChunk c :=
      utf8Encode_ascii (padChunk_ascii hasc)
    rw [encryptChunks_cons, if_neg hlen0, hdata,
      cipherEncrypt_of_mod E K prev (padChunk c) (padChunk_length_mod c)]
    dsimp only
    rw [ih _ (fun x hx => h x (by simp [hx]))]
    have hsplit : chunkstring (((c :: cs).map padChunk).flatten) 16 =
        chunkstring (padChunk c) 16 ++ chunkstring ((cs.map padChunk).flatten) 16 := by
      rw [List.map_cons, List.flatten_cons]
      exact chunkstring_append (by norm_num) _ _
        (Nat.dvd_of_mod_eq_zero (padChunk_length_mod c))
    rw [hsplit, cbcEncBlocks_append, List.flatten_append]
    rfl

theorem decryptChunks_eq (D : PyBytes → PyBytes → PyBytes) (K : PyBytes) :
    ∀ (chunks : List PyBytes) (prev : PyBytes),
      (∀ c ∈ chunks, c.length % 16 = 0) →
      decryptChunks D K chunks prev =
        some ((cbcDecBlocks D K prev (chunkstring chunks.flatten 16)).flatten) := by
  intro chunks
  induction chunks with
  | nil => intro prev _; rfl
  | cons c cs ih =>
    intro prev h
    rw [decryptChunks_cons, cipherDecrypt_of_mod D K prev c (h c (by simp))]
    dsimp only
    rw [ih _ (fun x hx => h x (by simp [hx]))]
    have hsplit : chunkstring ((c :: cs).flatten) 16 =
        chunkstring c 16 ++ chunkstring (cs.flatten) 16 := by
      rw [List.flatten_cons]
      exact chunkstring_append (by norm_num) _ _
        (Nat.dvd_of_mod_eq_zero (h c (by simp)))
    rw [hsplit, cbcDecBlocks_append, List.flatten_append]
    rfl

theorem pad_flatten_aux {cs : Nat} (hcs16 : cs % 16 = 0) (hcs0 : 0 < cs) :
    ∀ (N : Nat) (p : PyStr), p.length ≤ N →
      ((chunkstring p cs).map padChunk).flatten = padChunk p := by
  intro N
  induction N with
  | zero =>
    intro p hp
    have : p = [] := List.eq_nil_of_length_eq_zero (Nat.le_zero.mp hp)
    subst this
    simp [chunkstring_nil, padChunk]
  | succ N ih =>
    intro p hp
    rcases eq_or_ne p [] with rfl | hne
    · simp [chunkstring_nil, padChunk]
    · rcases Nat.le_total p.length cs with hle | hgt
      · rw [chunkstring_single hcs0 p hne hle]
        simp
      · rw [chunkstring_cons hcs0 p hne, List.map_cons, List.flatten_cons]
        have htk : (p.take cs).length = cs := by
          simp only [List.length_take]
          omega
        have htk16 : (p.take cs).length % 16 = 0 := by rw [htk]; exact hcs16
        rw [padChunk_of_mod htk16,
          ih (p.drop cs) (by simp only [List.length_drop]; omega),
          ← padChunk_append htk16, List.take_append_drop]

theorem packQ_length (n : Nat) : (packQ n).length = 8 := rfl

theorem unpackQ_packQ {n : Nat} (h : n < 2 ^ 64) : unpackQ (packQ n) = n := by
  simp only [unpackQ, packQ, List.take, List.foldr]
  omega

theorem pad_flatten {cs : Nat} (hcs16 : cs % 16 = 0) (hcs0 : 0 < cs) (p : PyStr) :
    ((chunkstring p cs).map padChunk).flatten = padChunk p :=
  pad_flatten_aux hcs16 hcs0 p.length p le_rfl

/-- Normal form of encrypt_file on an ASCII plaintext: the container is the
header followed by the CBC encryption of the space-padded plaintext,
independently of the chunk size. -/
theorem encrypt_file_ascii (sha strRepr : PyBytes → PyBytes)
    (E : PyBytes → PyBytes → PyBytes) (key p : PyStr) (iv : PyBytes) (cs : Nat)
    (hasc : Ascii p) (hcs16 : cs % 16 = 0) (hcs0 : 0 < cs) :
    encrypt_file sha strRepr E key p iv cs =
      some (packQ p.length ++ iv ++ check_please sha strRepr iv p ++
        (cbcEncBlocks E (sha (utf8Encode key)) iv
          (chunkstring (padChunk p) 16)).flatten) := by
  unfold encrypt_file
  dsimp only
  rw [encryptChunks_eq E _ (chunkstring p cs) iv (fun c hc =>
    ⟨mem_chunkstring_ne_nil hcs0 p c hc,
     fun x hx => hasc x (mem_chunkstring_subset hcs0 p c hc x hx)⟩)]
  rw [pad_flatten hcs16 hcs0 p]
  rfl

/-- Normal form of decrypt_file on a well-formed container: the header is
parsed back field by field and the ciphertext is CBC-decrypted block by
block, independently of the read chunk size. -/
theorem decrypt_file_parse (sha strRepr : PyBytes → PyBytes)
    (D : PyBytes → PyBytes → PyBytes) (key : PyStr) (L : Nat)
    (iv chk ct : PyBytes) (cs : Nat)
    (hiv : iv.length = 16) (hchk : chk.length = 32) (hL : L < 2 ^ 64)
    (hcs16 : cs % 16 = 0) (hcs0 : 0 < cs) (hct : ct.length % 16 = 0) :
    decrypt_file sha strRepr D key (packQ L ++ iv ++ chk ++ ct) cs =
      match utf8Decode (((cbcDecBlocks D (sha (utf8Encode key)) iv
          (chunkstring ct 16)).flatten).take L) with
      | none => .error .unicodeDecodeError
      | some plaintext =>
        if chk ≠ check_please sha strRepr iv plaintext then .error .contentNotEqual
        else .ok plaintext := by
  have hlen : ¬((packQ L ++ iv ++ chk ++ ct).length < 8) := by
    simp only [List.length_append, packQ_length]
    omega
  have h24 : (packQ L ++ iv).length = 24 := by
    rw [List.length_append, packQ_length, hiv]
  have h56 : ((packQ L ++ iv) ++ chk).length = 56 := by
    rw [List.length_append, h24, hchk]
  unfold decrypt_file
  dsimp only
  rw [if_neg hlen, List.drop_left' h56]
  rw [List.append_assoc (packQ L ++ iv) chk ct]
  rw [List.drop_left' h24, List.take_left' hchk]
  rw [List.append_assoc (packQ L) iv (chk ++ ct)]
  rw [List.take_left' (packQ_length L), unpackQ_packQ hL,
    List.drop_left' (packQ_length L), List.take_left' hiv]
  rw [if_neg (show ¬(iv.length ≠ 16) from fun hc => hc hiv)]
  rw [decryptChunks_eq D _ (chunkstring ct cs) iv
    (mem_chunkstring_mod hcs0 hcs16 ct hct)]
  rw [chunkstring_flatten hcs0 ct]

/-- The ciphertext body produced by encrypt_file on an ASCII plaintext:
its 16-byte block decomposition is the block list itself, and its length is
a multiple of 16. -/
theorem encBody_blocks (E : PyBytes → PyBytes → PyBytes) (K iv : PyBytes) (p : PyStr)
    (hE16 : ∀ b, b.length = 16 → (E K b).length = 16) (hiv : iv.length = 16) :
    (∀ b ∈ cbcEncBlocks E K iv (chunkstring (padChunk p) 16), b.length = 16)
      ∧ chunkstring ((cbcEncBlocks E K iv (chunkstring (padChunk p) 16)).flatten) 16 =
          cbcEncBlocks E K iv (chunkstring (padChunk p) 16) := by
  have hblocks : ∀ b ∈ chunkstring (padChunk p) 16, b.length = 16 :=
    chunkstring16_blocks (padChunk_length_mod p)
  have h16 : ∀ b ∈ cbcEncBlocks E K iv (chunkstring (padChunk p) 16), b.length = 16 :=
    cbcEncBlocks_blocks16 E K hE16 _ iv hiv hblocks
  exact ⟨h16, chunkstring_of_blocks _ h16⟩

/-- Core of the round trip, stated for two keys: decrypting the container
encrypt_file wrote with a decryption key whose block map inverts the
encryption key's block map recovers the ASCII plaintext (with one key this
is the ordinary round trip). -/
theorem decrypt_file_encrypt_file (sha strRepr : PyBytes → PyBytes)
    (E D : PyBytes → PyBytes → PyBytes) (keyE keyD p : PyStr) (iv : PyBytes)
    (csE csD : Nat)
    (hED : ∀ b, b.length = 16 →
      D (sha (utf8Encode keyD)) (E (sha (utf8Encode keyE)) b) = b)
    (hE16 : ∀ b, b.length = 16 → (E (sha (utf8Encode keyE)) b).length = 16)
    (hsha32 : ∀ x, (sha x).length = 32)
    (hiv : iv.length = 16) (hasc : Ascii p) (hL : p.length < 2 ^ 64)
    (hcsE16 : csE % 16 = 0) (hcsE0 : 0 < csE) (hcsD16 : csD % 16 = 0) (hcsD0 : 0 < csD) :
    ∃ c, encrypt_file sha strRepr E keyE p iv csE = some c
      ∧ decrypt_file sha strRepr D keyD c csD = .ok p := by
  set K := sha (utf8Encode keyE) with hK
  set body := (cbcEncBlocks E K iv (chunkstring (padChunk p) 16)).flatten with hbody
  refine ⟨packQ p.length ++ iv ++ check_please sha strRepr iv p ++ body,
    encrypt_file_ascii sha strRepr E keyE p iv csE hasc hcsE16 hcsE0, ?_⟩
  obtain ⟨hblocks16, hrechunk⟩ :=
    encBody_blocks E K iv p (fun b hb => hE16 b hb) hiv
  have hbodyct : body.length % 16 = 0 := by
    rw [hbody, flatten_blocks16_length _ hblocks16]
    omega
  rw [decrypt_file_parse sha strRepr D keyD p.length iv
    (check_please sha strRepr iv p) body csD hiv (hsha32 _) hL hcsD16 hcsD0 hbodyct]
  rw [hrechunk]
  rw [cbcDec_cbcEnc E D K (sha (utf8Encode keyD)) hED hE16 _ iv hiv
    (chunkstring16_blocks (padChunk_length_mod p))]
  rw [chunkstring_flatten (by norm_num) (padChunk p), padChunk_take p,
    utf8Decode_ascii hasc]
  simp

/-! ### Inversion lemmas -/

/-- A successful strict UTF-8 decode to an ASCII string forces the input
bytes to be that string: every multi-byte sequence decodes to a code point
of at least U+0080 (overlong forms are rejected). -/
theorem utf8Decode_ascii_sound : ∀ (b : PyBytes) (s : PyStr),
    utf8Decode b = some s → Ascii s → b = s := by
  intro b
  induction b with
  | nil =>
    intro s hdec _
    injection hdec
  | cons b0 t ih =>
    intro s hdec hasc
    by_cases h80 : b0 < 0x80
    · replace hdec : (utf8Decode t).map (b0 :: ·) = some s := by
        rw [utf8Decode_cons, if_pos h80] at hdec
        exact hdec
      rcases ht : utf8Decode t with _ | s'
      · rw [ht] at hdec
        exact Option.noConfusion hdec
      · rw [ht, Option.map_some'] at hdec
        injection hdec with hs
        subst hs
        rw [ih s' ht (fun x hx => hasc x (by simp [hx]))]
    · by_cases h1 : b0 < 0xC2
      · replace hdec : (none : Option PyStr) = some s := by
          rw [utf8Decode_cons, if_neg h80, if_pos h1] at hdec
          exact hdec
        exact Option.noConfusion hdec
      · by_cases h2 : b0 < 0xE0
        · rcases t with _ | ⟨b1, r⟩
          · replace hdec : (none : Option PyStr) = some s := by
              rw [utf8Decode_cons, if_neg h80, if_neg h1, if_pos h2] at hdec
              exact hdec
            exact Option.noConfusion hdec
          · replace hdec : (if 0x80 ≤ b1 ∧ b1 < 0xC0 then
                (utf8Decode r).map (((b0 - 0xC0) * 64 + (b1 - 0x80)) :: ·)
              else none) = some s := by
              rw [utf8Decode_cons, if_neg h80, if_neg h1, if_pos h2] at hdec
              exact hdec
            by_cases hc : 0x80 ≤ b1 ∧ b1 < 0xC0
            · rw [if_pos hc] at hdec
              rcases hr : utf8Decode r with _ | s'
              · rw [hr] at hdec
                exact Option.noConfusion hdec
              · rw [hr, Option.map_some'] at hdec
                injection hdec with hs
                have hmem : (b0 - 0xC0) * 64 + (b1 - 0x80) ∈ s := by
                  rw [← hs]
                  simp
                have := hasc _ hmem
                omega
            · rw [if_neg hc] at hdec
              exact Option.noConfusion hdec
        · by_cases h3 : b0 < 0xF0
          · rcases t with _ | ⟨b1, _ | ⟨b2, r⟩⟩
            · replace hdec : (none : Option PyStr) = some s := by
                rw [utf8Decode_cons, if_neg h80, if_neg h1, if_neg h2, if_pos h3] at hdec
                exact hdec
              exact Option.noConfusion hdec
            · replace hdec : (none : Option PyStr) = some s := by
                rw [utf8Decode_cons, if_neg h80, if_neg h1, if_neg h2, if_pos h3] at hdec
                exact hdec
              exact Option.noConfusion hdec
            · replace hdec : (if (0x80 ≤ b1 ∧ b1 < 0xC0) ∧ (0x80 ≤ b2 ∧ b2 < 0xC0)
                    ∧ (b0 = 0xE0 → 0xA0 ≤ b1) ∧ (b0 = 0xED → b1 < 0xA0) then
                  (utf8Decode r).map
                    (((b0 - 0xE0) * 4096 + (b1 - 0x80) * 64 + (b2 - 0x80)) :: ·)
                else none) = some s := by
                rw [utf8Decode_cons, if_neg h80, if_neg h1, if_neg h2, if_pos h3] at hdec
                exact hdec
              by_cases hc : (0x80 ≤ b1 ∧ b1 < 0xC0) ∧ (0x80 ≤ b2 ∧ b2 < 0xC0)
                  ∧ (b0 = 0xE0 → 0xA0 ≤ b1) ∧ (b0 = 0xED → b1 < 0xA0)
              · rw [if_pos hc] at hdec
                rcases hr : utf8Decode r with _ | s'
                · rw [hr] at hdec
                  exact Option.noConfusion hdec
                · rw [hr, Option.map_some'] at hdec
                  injection hdec with hs
                  have hmem : (b0 - 0xE0) * 4096 + (b1 - 0x80) * 64 + (b2 - 0x80) ∈ s := by
                    rw [← hs]
                    simp
                  have := hasc _ hmem
                  obtain ⟨hc1, hc2, hc3, hc4⟩ := hc
                  omega
              · rw [if_neg hc] at hdec
                exact Option.noConfusion hdec
          · by_cases h4 : b0 < 0xF5
            · rcases t with _ | ⟨b1, _ | ⟨b2, _ | ⟨b3, r⟩⟩⟩
              · replace hdec : (none : Option PyStr) = some s := by
                  rw [utf8Decode_cons, if_neg h80, if_neg h1, if_neg h2, if_neg h3,
                    if_pos h4] at hdec
                  exact hdec
                exact Option.noConfusion hdec
              · replace hdec : (none : Option PyStr) = some s := by
                  rw [utf8Decode_cons, if_neg h80, if_neg h1, if_neg h2, if_neg h3,
                    if_pos h4] at hdec
                  exact hdec
                exact Option.noConfusion hdec
              · replace hdec : (none : Option PyStr) = some s := by
                  rw [utf8Decode_cons, if_neg h80, if_neg h1, if_neg h2, if_neg h3,
                    if_pos h4] at hdec
                  exact hdec
                exact Option.noConfusion hdec
              · replace hdec : (if (0x80 ≤ b1 ∧ b1 < 0xC0) ∧ (0x80 ≤ b2 ∧ b2 < 0xC0)
                      ∧ (0x80 ≤ b3 ∧ b3 < 0xC0) ∧ (b0 = 0xF0 → 0x90 ≤ b1)
                      ∧ (b0 = 0xF4 → b1 < 0x90) then
                    (utf8Decode r).map
                      (((b0 - 0xF0) * 262144 + (b1 - 0x80) * 4096 + (b2 - 0x80) * 64
                        + (b3 - 0x80)) :: ·)
                  else none) = some s := by
                  rw [utf8Decode_cons, if_neg h80, if_neg h1, if_neg h2, if_neg h3,
                    if_pos h4] at hdec
                  exact hdec
                by_cases hc : (0x80 ≤ b1 ∧ b1 < 0xC0) ∧ (0x80 ≤ b2 ∧ b2 < 0xC0)
                    ∧ (0x80 ≤ b3 ∧ b3 < 0xC0) ∧ (b0 = 0xF0 → 0x90 ≤ b1)
                    ∧ (b0 = 0xF4 → b1 < 0x90)
                · rw [if_pos hc] at hdec
                  rcases hr : utf8Decode r with _ | s'
                  · rw [hr] at hdec
                    exact Option.noConfusion hdec
                  · rw [hr, Option.map_some'] at hdec
                    injection hdec with hs
                    have hmem : (b0 - 0xF0) * 262144 + (b1 - 0x80) * 4096
                        + (b2 - 0x80) * 64 + (b3 - 0x80) ∈ s := by
                      rw [← hs]
                      simp
                    have := hasc _ hmem
                    obtain ⟨hc1, hc2, hc3, hc4, hc5⟩ := hc
                    omega
                · rw [if_neg hc] at hdec
                  exact Option.noConfusion hdec
            · replace hdec : (none : Option PyStr) = some s := by
                rw [utf8Decode_cons, if_neg h80, if_neg h1, if_neg h2, if_neg h3,
                  if_neg h4] at hdec
                exact hdec
              exact Option.noConfusion hdec

/-- Field extraction from a container with well-formed header segments. -/
theorem container_fields (L8 iv chk ct : PyBytes)
    (h8 : L8.length = 8) (hiv : iv.length = 16) (hchk : chk.length = 32) :
    (L8 ++ iv ++ chk ++ ct).take 8 = L8
    ∧ ((L8 ++ iv ++ chk ++ ct).drop 8).take 16 = iv
    ∧ ((L8 ++ iv ++ chk ++ ct).drop 24).take 32 = chk
    ∧ (L8 ++ iv ++ chk ++ ct).drop 56 = ct := by
  have h24 : (L8 ++ iv).length = 24 := by rw [List.length_append, h8, hiv]
  have h56 : ((L8 ++ iv) ++ chk).length = 56 := by rw [List.length_append, h24, hchk]
  refine ⟨?_, ?_, ?_, ?_⟩
  · rw [List.append_assoc (L8 ++ iv) chk ct, List.append_assoc L8 iv (chk ++ ct),
      List.take_left' h8]
  · rw [List.append_assoc (L8 ++ iv) chk ct, List.append_assoc L8 iv (chk ++ ct),
      List.drop_left' h8, List.take_left' hiv]
  · rw [List.append_assoc (L8 ++ iv) chk ct, List.drop_left' h24, List.take_left' hchk]
  · rw [List.drop_left' h56]

/-- A successful decrypt_file means the recomputed digest over the parsed
IV and the returned plaintext equals the stored digest field. -/
theorem decrypt_file_ok (sha strRepr : PyBytes → PyBytes)
    (D : PyBytes → PyBytes → PyBytes) (key : PyStr) (container : PyBytes)
    (cs : Nat) (q : PyStr)
    (h : decrypt_file sha strRepr D key container cs = .ok q) :
    (container.drop 24).take 32 =
      check_please sha strRepr ((container.drop 8).take 16) q := by
  unfold decrypt_file at h
  dsimp only at h
  by_cases h8 : container.length < 8
  · rw [if_pos h8] at h
    exact absurd h (by simp)
  · rw [if_neg h8] at h
    by_cases hivl : ((container.drop 8).take 16).length ≠ 16
    · rw [if_pos hivl] at h
      exact absurd h (by simp)
    · rw [if_neg hivl] at h
      rcases hdc : decryptChunks D (sha (utf8Encode key))
          (chunkstring (container.drop 56) cs) ((container.drop 8).take 16) with _ | out
      · rw [hdc] at h
        exact absurd h (by simp)
      · rw [hdc] at h
        dsimp only at h
        rcases hdec : utf8Decode (out.take (unpackQ (container.take 8))) with _ | pl
        · rw [hdec] at h
          exact absurd h (by simp)
        · rw [hdec] at h
          dsimp only at h
          by_cases hchk : (container.drop 24).take 32 ≠
              check_please sha strRepr ((container.drop 8).take 16) pl
          · rw [if_pos hchk] at h
            exact absurd h (by simp)
          · rw [if_neg hchk] at h
            have hpl : pl = q := by simpa using h
            rw [← hpl]
            exact not_ne_iff.mp hchk

/-- dict.pop raises KeyError exactly when lookup misses. -/
theorem vmPop_eq_none : ∀ (m : VMap) (n : PyStr),
    vmLookup m n = none → vmPop m n = none := by
  intro m
  induction m with
  | nil => intro n _; rfl
  | cons kv rest ih =>
    intro n hlook
    obtain ⟨k, v⟩ := kv
    unfold vmLookup at hlook
    unfold vmPop
    by_cases hk : k = n
    · rw [if_pos hk] at hlook
      exact absurd hlook (by simp)
    · rw [if_neg hk] at hlook
      rw [if_neg hk, ih n hlook]
      rfl

/-- Two distinct lists of the same length differ at an index below their
length. -/
theorem exists_getElem?_ne {α : Type} {a b : List α} (hlen : a.length = b.length)
    (hne : a ≠ b) : ∃ i, i < a.length ∧ a[i]? ≠ b[i]? := by
  by_contra hall
  push_neg at hall
  apply hne
  apply List.ext_getElem?
  intro n
  by_cases hn : n < a.length
  · exact hall n hn
  · rw [List.getElem?_eq_none (by omega), List.getElem?_eq_none (by omega)]

/-! ### Claims -/

/-- C1 (counterexample): the round trip fails on a UTF-8 plaintext of
sixteen copies of U+00E9.  encrypt_file records the character count 16 in
the header while the ciphertext carries the 32 UTF-8 bytes; decrypt_file
truncates the decrypted bytes to 16, so the round trip cannot return the
original plaintext (with the real SHA-256 the digest check then fails; the
instantiated stand-ins make the discrepancy concrete).  This refutes the
claim that decrypt(k, encrypt(k, p)) = p for every UTF-8 plaintext. -/
theorem C1_cex :
    roundTrip constSha idRepr idCipher idCipher [65] (List.replicate 16 233)
      (List.replicate 16 0) 24576 24576 ≠ .ok (List.replicate 16 233) := by
  decide

/-- C1 (amended): for every ASCII plaintext p (in particular plaintexts
with trailing spaces, embedded newlines, and the JSON text of the two code
points 123, 125) and every key, decrypt(k, encrypt(k, p)) = p.  The block
cipher parameters satisfy the CBC contract, the digest has SHA-256's
32-byte length, the IV is 16 bytes and the chunk sizes are positive
multiples of 16 (mums uses 24·1024). -/
theorem C1_round_trip_ascii
    (sha strRepr : PyBytes → PyBytes) (E D : PyBytes → PyBytes → PyBytes)
    (key p : PyStr) (iv : PyBytes) (csE csD : Nat)
    (hED : ∀ k b, b.length = 16 → D k (E k b) = b)
    (hE16 : ∀ k b, b.length = 16 → (E k b).length = 16)
    (hsha32 : ∀ x, (sha x).length = 32)
    (hiv : iv.length = 16) (hasc : Ascii p) (hL : p.length < 2 ^ 64)
    (hcsE16 : csE % 16 = 0) (hcsE0 : 0 < csE)
    (hcsD16 : csD % 16 = 0) (hcsD0 : 0 < csD) :
    roundTrip sha strRepr E D key p iv csE csD = .ok p := by
  obtain ⟨c, henc, hdec⟩ := decrypt_file_encrypt_file sha strRepr E D key key p iv csE csD
    (fun b hb => hED _ b hb) (fun b hb => hE16 _ b hb) hsha32 hiv hasc hL
    hcsE16 hcsE0 hcsD16 hcsD0
  unfold roundTrip
  rw [henc]
  exact hdec

/-- C1 (witness): the amended round trip at the JSON text of the two code
points 123, 125 with concrete stand-ins. -/
theorem C1_round_trip_ascii_witness :
    Ascii [123, 125] ∧ (List.replicate 16 0 : PyBytes).length = 16
      ∧ roundTrip constSha idRepr idCipher idCipher [65] [123, 125]
          (List.replicate 16 0) 16 16 = .ok [123, 125] :=
  ⟨by decide, by decide,
   C1_round_trip_ascii constSha idRepr idCipher idCipher [65] [123, 125]
     (List.replicate 16 0) 16 16 (fun _ _ _ => rfl) (fun _ _ h => h) constSha_length
     (by decide) (by decide) (by decide) (by decide) (by decide) (by decide) (by decide)⟩

/-- C3 (counterexample): with the embedding's block cipher parameter
instantiated to a cipher satisfying the CBC contract whose block map
ignores the key, two passphrases with different derived digests decrypt
each other's containers successfully, returning the original plaintext.
This refutes the claim that decrypt(k2, encrypt(k1, p)) always fails with
DecodeError or IntegrityError when the derived keys differ: the failure is
not forced by the code's structure, only by cryptographic properties of
AES that hold with overwhelming probability but not absolutely. -/
theorem C3_cex :
    headSha (utf8Encode [65]) ≠ headSha (utf8Encode [66])
      ∧ (encrypt_file headSha idRepr idCipher [65] [123, 125]
          (List.replicate 16 0) 24576).map
          (fun c => decrypt_file headSha idRepr idCipher [66] c 24576) =
        some (.ok [123, 125]) := by
  decide

/-- C3 (amended): decrypting a container produced with key k1 using any
key k2 (in particular one whose derived digest differs) either fails or
returns exactly the original plaintext; it can never succeed and return a
plaintext different from p.  The digest binds the plaintext: a successful
decrypt means the stored digest matches the recomputed one, and digest
collision-freeness (injectivity of sha, the spec's stated assumption)
forces the returned plaintext to be p. -/
theorem C3_wrong_key_amended (sha strRepr : PyBytes → PyBytes)
    (E D : PyBytes → PyBytes → PyBytes) (k1 k2 p : PyStr) (iv c : PyBytes)
    (csE csD : Nat)
    (hshaInj : Function.Injective sha)
    (hsha32 : ∀ x, (sha x).length = 32)
    (hkeys : sha (utf8Encode k1) ≠ sha (utf8Encode k2))
    (hiv : iv.length = 16) (hasc : Ascii p)
    (hcsE16 : csE % 16 = 0) (hcsE0 : 0 < csE)
    (henc : encrypt_file sha strRepr E k1 p iv csE = some c) :
    ∀ q, decrypt_file sha strRepr D k2 c csD = .ok q → q = p := by
  intro q hdec
  rw [encrypt_file_ascii sha strRepr E k1 p iv csE hasc hcsE16 hcsE0] at henc
  injection henc with henc
  subst henc
  have hok := decrypt_file_ok sha strRepr D k2 _ csD q hdec
  obtain ⟨_, hiv', hchk', _⟩ := container_fields (packQ p.length) iv
    (check_please sha strRepr iv p) _ (packQ_length _) hiv (hsha32 _)
  rw [hchk', hiv'] at hok
  exact (check_please_injective hshaInj iv hok).symm

/-- C3 (witness): concrete instantiation of the amended wrong-key theorem
with the injective digest stand-in, a key-ignoring contract-satisfying
cipher, keys "A" and "B" (whose derived digests differ) and the JSON text
of the two code points 123, 125. -/
theorem C3_wrong_key_amended_witness :
    pairSha (utf8Encode [65]) ≠ pairSha (utf8Encode [66])
      ∧ encrypt_file pairSha idRepr idCipher [65] [123, 125]
          (List.replicate 16 0) 16 = some nfcont
      ∧ ∀ q, decrypt_file pairSha idRepr idCipher [66] nfcont 16 = .ok q →
          q = [123, 125] := by
  have henc : encrypt_file pairSha idRepr idCipher [65] [123, 125]
      (List.replicate 16 0) 16 = some nfcont :=
    encrypt_file_ascii pairSha idRepr idCipher [65] [123, 125]
      (List.replicate 16 0) 16 (by decide) (by decide) (by decide)
  exact ⟨by decide, henc,
    C3_wrong_key_amended pairSha idRepr idCipher idCipher [65] [66] [123, 125]
      (List.replicate 16 0) nfcont 16 16 pairSha_injective
      pairSha_length (by decide) (by decide) (by decide) (by decide) (by decide) henc⟩

/-- C4 (counterexample): the first header field is the plaintext's
character count, not its UTF-8 byte length.  For sixteen copies of U+00E9
encrypt_file writes 16 while the UTF-8 byte length is 32, refuting the
claim that the container begins with the plaintext's byte length. -/
theorem C4_cex :
    ((encrypt_file constSha idRepr idCipher [65] (List.replicate 16 233)
        (List.replicate 16 0) 24576).map (List.take 8)) ≠
      some (packQ (utf8Encode (List.replicate 16 233)).length) := by
  decide

/-- C4 (amended): the container begins with the plaintext's length in
characters (Python's len of the string) as an 8-byte little-endian
unsigned integer at offset 0 — which equals the byte length exactly when
the plaintext is ASCII — followed by the 16-byte IV at offset 8, the
32-byte digest at offset 24, and the CBC ciphertext (a multiple of 16
bytes) from offset 56. -/
theorem C4_header_layout_ascii (sha strRepr : PyBytes → PyBytes)
    (E : PyBytes → PyBytes → PyBytes) (key p : PyStr) (iv : PyBytes) (cs : Nat)
    (hE16 : ∀ k b, b.length = 16 → (E k b).length = 16)
    (hsha32 : ∀ x, (sha x).length = 32)
    (hiv : iv.length = 16) (hasc : Ascii p) (hcs16 : cs % 16 = 0) (hcs0 : 0 < cs) :
    ∃ ct, encrypt_file sha strRepr E key p iv cs =
        some (packQ p.length ++ iv ++ check_please sha strRepr iv p ++ ct)
      ∧ (packQ p.length ++ iv ++ check_please sha strRepr iv p ++ ct).take 8
          = packQ p.length
      ∧ ((packQ p.length ++ iv ++ check_please sha strRepr iv p ++ ct).drop 8).take 16
          = iv
      ∧ ((packQ p.length ++ iv ++ check_please sha strRepr iv p ++ ct).drop 24).take 32
          = check_please sha strRepr iv p
      ∧ (packQ p.length ++ iv ++ check_please sha strRepr iv p ++ ct).drop 56 = ct
      ∧ ct.length % 16 = 0
      ∧ p.length = (utf8Encode p).length := by
  obtain ⟨hb16, _⟩ := encBody_blocks E (sha (utf8Encode key)) iv p
    (fun b hb => hE16 _ b hb) hiv
  obtain ⟨hf1, hf2, hf3, hf4⟩ := container_fields (packQ p.length) iv
    (check_please sha strRepr iv p)
    ((cbcEncBlocks E (sha (utf8Encode key)) iv (chunkstring (padChunk p) 16)).flatten)
    (packQ_length _) hiv (hsha32 _)
  refine ⟨(cbcEncBlocks E (sha (utf8Encode key)) iv (chunkstring (padChunk p) 16)).flatten,
    encrypt_file_ascii sha strRepr E key p iv cs hasc hcs16 hcs0,
    hf1, hf2, hf3, hf4, ?_, ?_⟩
  · rw [flatten_blocks16_length _ hb16]
    omega
  · rw [utf8Encode_ascii hasc]

/-- C4 (witness): the amended layout theorem at the JSON text of the two
code points 123, 125 with concrete stand-ins. -/
theorem C4_header_layout_ascii_witness :
    Ascii [123, 125] ∧ (List.replicate 16 0 : PyBytes).length = 16
      ∧ ∃ ct, encrypt_file constSha idRepr idCipher [65] [123, 125]
            (List.replicate 16 0) 16 =
          some (packQ 2 ++ List.replicate 16 0
            ++ check_please constSha idRepr (List.replicate 16 0) [123, 125] ++ ct)
        ∧ (packQ 2 ++ List.replicate 16 0
            ++ check_please constSha idRepr (List.replicate 16 0) [123, 125] ++ ct).take 8
            = packQ 2
        ∧ ((packQ 2 ++ List.replicate 16 0
            ++ check_please constSha idRepr (List.replicate 16 0) [123, 125] ++ ct).drop 8).take 16
            = List.replicate 16 0
        ∧ ((packQ 2 ++ List.replicate 16 0
            ++ check_please constSha idRepr (List.replicate 16 0) [123, 125] ++ ct).drop 24).take 32
            = check_please constSha idRepr (List.replicate 16 0) [123, 125]
        ∧ (packQ 2 ++ List.replicate 16 0
            ++ check_please constSha idRepr (List.replicate 16 0) [123, 125] ++ ct).drop 56 = ct
        ∧ ct.length % 16 = 0
        ∧ ([123, 125] : PyStr).length = (utf8Encode [123, 125]).length :=
  ⟨by decide, by decide,
   C4_header_layout_ascii constSha idRepr idCipher [65] [123, 125]
     (List.replicate 16 0) 16 (fun _ _ h => h) constSha_length
     (by decide) (by decide) (by decide) (by decide)⟩

/-- C5: the integrity digest is definitionally the SHA-256 of the IV's
textual rendering concatenated with the hex-encoded SHA-256 of the
plaintext's UTF-8 bytes, and — under the spec's collision-resistance
assumption, stated as injectivity of the digest function — it identifies
the plaintext: for a fixed IV, compute(iv, p1) = compute(iv, p2) iff
p1 = p2. -/
theorem C5_integrity_digest (sha strRepr : PyBytes → PyBytes) (iv : PyBytes)
    (p1 p2 : PyStr) (hshaInj : Function.Injective sha)
    (hsha32 : ∀ x, (sha x).length = 32) :
    check_please sha strRepr iv p1 =
        sha (strRepr iv ++ utf8Encode (hexdigest (sha (utf8Encode p1))))
      ∧ (check_please sha strRepr iv p1).length = 32
      ∧ (check_please sha strRepr iv p1 = check_please sha strRepr iv p2 ↔ p1 = p2) :=
  ⟨rfl, hsha32 _, ⟨fun h => check_please_injective hshaInj iv h, fun h => by rw [h]⟩⟩

/-- C5 (witness): the digest theorem at two concrete plaintexts under the
injective 32-byte digest stand-in. -/
theorem C5_integrity_digest_witness :
    Function.Injective pairSha ∧ (∀ x, (pairSha x).length = 32)
      ∧ (check_please pairSha idRepr (List.replicate 16 0) [123, 125] =
          check_please pairSha idRepr (List.replicate 16 0) [65] ↔
            ([123, 125] : PyStr) = [65]) :=
  ⟨pairSha_injective, pairSha_length,
   (C5_integrity_digest pairSha idRepr (List.replicate 16 0) [123, 125] [65]
     pairSha_injective pairSha_length).2.2⟩

/-- C6 (counterexample): chunk-size independence fails for non-ASCII
plaintexts.  For the 32-character plaintext c6plain (whose first 16
characters occupy 17 UTF-8 bytes) encryption with chunk size 32 produces a
container while chunk size 16 raises ValueError, so the containers are not
identical for every chunk size that is a positive multiple of 16. -/
theorem C6_cex :
    encrypt_file constSha idRepr idCipher [65] c6plain (List.replicate 16 0) 32 ≠
      encrypt_file constSha idRepr idCipher [65] c6plain (List.replicate 16 0) 16 := by
  decide

/-- C6 (amended): for every ASCII plaintext the container bytes are
identical for every chunk size that is a positive multiple of 16, and
equal to padding the whole plaintext to the next multiple of 16 and
encrypting it in a single CBC pass. -/
theorem C6_chunk_size_independence_ascii (sha strRepr : PyBytes → PyBytes)
    (E : PyBytes → PyBytes → PyBytes) (key p : PyStr) (iv : PyBytes) (cs1 cs2 : Nat)
    (hasc : Ascii p) (h1m : cs1 % 16 = 0) (h1p : 0 < cs1)
    (h2m : cs2 % 16 = 0) (h2p : 0 < cs2) :
    encrypt_file sha strRepr E key p iv cs1 = encrypt_file sha strRepr E key p iv cs2
      ∧ encrypt_file sha strRepr E key p iv cs1 = encryptOnePass sha strRepr E key p iv := by
  have hOne : encryptOnePass sha strRepr E key p iv =
      some (packQ p.length ++ iv ++ check_please sha strRepr iv p ++
        (cbcEncBlocks E (sha (utf8Encode key)) iv (chunkstring (padChunk p) 16)).flatten) := by
    unfold encryptOnePass
    rw [utf8Encode_ascii (padChunk_ascii hasc),
      cipherEncrypt_of_mod E _ iv (padChunk p) (padChunk_length_mod p)]
    rfl
  rw [encrypt_file_ascii sha strRepr E key p iv cs1 hasc h1m h1p,
    encrypt_file_ascii sha strRepr E key p iv cs2 hasc h2m h2p, hOne]
  exact ⟨rfl, rfl⟩

/-- C6 (witness): the amended chunk-size independence at the JSON text of
the two code points 123, 125 with chunk sizes 16 and 32. -/
theorem C6_chunk_size_independence_ascii_witness :
    Ascii [123, 125]
      ∧ (encrypt_file constSha idRepr idCipher [65] [123, 125] (List.replicate 16 0) 16 =
          encrypt_file constSha idRepr idCipher [65] [123, 125] (List.replicate 16 0) 32
        ∧ encrypt_file constSha idRepr idCipher [65] [123, 125] (List.replicate 16 0) 16 =
          encryptOnePass constSha idRepr idCipher [65] [123, 125] (List.replicate 16 0)) :=
  ⟨by decide,
   C6_chunk_size_independence_ascii constSha idRepr idCipher [65] [123, 125]
     (List.replicate 16 0) 16 32 (by decide) (by decide) (by decide) (by decide) (by decide)⟩

/-- C7 (counterexample): decode failures are not surfaced unmodified.  On
a file whose decryption raises UnicodeDecodeError, _load raises the
generic "Failed to load from vault" exception instead of the original
error, so the claim that every failure propagates to the caller unmodified
is false (and wrong-key and not-a-vault failures are collapsed into this
one generic error). -/
theorem C7_cex :
    decrypt_file constSha idRepr idCipher [65] c7file 24576 =
        .error .unicodeDecodeError
      ∧ _load constSha idRepr idCipher (fun _ => none) [65] (some c7file) =
          .error .loadFailed
      ∧ PyErr.loadFailed ≠ PyErr.unicodeDecodeError := by
  decide

/-- C7 (amended): every decryption, integrity or JSON-parse failure makes
_load fail — it never silently returns a mapping — but the errors are
surfaced as follows: IntegrityError ("Content not equal") and JSON parse
errors propagate unmodified, while UnicodeDecodeError is wrapped into the
generic "Failed to load from vault" error, which does not distinguish a
wrong key from a corrupted or non-vault file. -/
theorem C7_load_error_amended (sha strRepr : PyBytes → PyBytes)
    (D : PyBytes → PyBytes → PyBytes) (jsonLoads : PyStr → Option VMap)
    (key : PyStr) (bs : PyBytes) :
    (∀ e, decrypt_file sha strRepr D key bs 24576 = .error e →
        e ≠ .unicodeDecodeError →
        _load sha strRepr D jsonLoads key (some bs) = .error e)
      ∧ (decrypt_file sha strRepr D key bs 24576 = .error .unicodeDecodeError →
          _load sha strRepr D jsonLoads key (some bs) = .error .loadFailed)
      ∧ (∀ s, decrypt_file sha strRepr D key bs 24576 = .ok s → jsonLoads s = none →
          _load sha strRepr D jsonLoads key (some bs) = .error .jsonDecodeError)
      ∧ (∀ m, _load sha strRepr D jsonLoads key (some bs) = .ok m →
          ∃ s, decrypt_file sha strRepr D key bs 24576 = .ok s ∧ jsonLoads s = some m) := by
  refine ⟨?_, ?_, ?_, ?_⟩
  · intro e hd hne
    unfold _load
    dsimp only
    rw [hd]
    cases e
    case unicodeDecodeError => exact absurd rfl hne
    all_goals rfl
  · intro hd
    unfold _load
    dsimp only
    rw [hd]
  · intro s hd hj
    unfold _load
    dsimp only
    rw [hd]
    dsimp only
    rw [hj]
  · intro m hm
    unfold _load at hm
    dsimp only at hm
    rcases hd : decrypt_file sha strRepr D key bs 24576 with e | s
    · rw [hd] at hm
      cases e <;> simp_all
    · rw [hd] at hm
      dsimp only at hm
      rcases hj : jsonLoads s with _ | mm
      · rw [hj] at hm
        simp at hm
      · rw [hj] at hm
        dsimp only at hm
        have hmm : mm = m := by simpa using hm
        subst hmm
        exact ⟨s, rfl, hj⟩

/-- C7 (witness): the amended load-error theorem instantiated at the
concrete non-vault file c7file, where the decode failure is wrapped. -/
theorem C7_load_error_amended_witness :
    decrypt_file constSha idRepr idCipher [65] c7file 24576 =
        .error .unicodeDecodeError
      ∧ _load constSha idRepr idCipher (fun _ => none) [65] (some c7file) =
          .error .loadFailed :=
  ⟨by decide,
   (C7_load_error_amended constSha idRepr idCipher (fun _ => none) [65] c7file).2.1
     (by decide)⟩

/-- C8: removing a name that is absent from the vault mapping fails with
KeyError (dict.pop raises before anything is written), so the remove
command never rewrites the container on this error: its result is the
error, not a new container. -/
theorem C8_remove_absent (sha strRepr : PyBytes → PyBytes)
    (E D : PyBytes → PyBytes → PyBytes) (jsonLoads : PyStr → Option VMap)
    (jsonDumps : VMap → PyStr) (key : PyStr) (file : Option PyBytes)
    (name : PyStr) (iv : PyBytes) (m : VMap)
    (hload : _load sha strRepr D jsonLoads key file = .ok m)
    (habsent : vmLookup m name = none) :
    remove sha strRepr E D jsonLoads jsonDumps key file name iv = .error .keyError := by
  unfold remove
  rw [hload]
  dsimp only
  rw [vmPop_eq_none m name habsent]

/-- C8 (witness): removing the name "B" from a fresh (empty) vault. -/
theorem C8_remove_absent_witness :
    _load constSha idRepr idCipher (fun _ => none) [65] none = .ok []
      ∧ vmLookup [] [66] = none
      ∧ remove constSha idRepr idCipher idCipher (fun _ => none) (fun _ => [])
          [65] none [66] (List.replicate 16 0) = .error .keyError :=
  ⟨rfl, rfl,
   C8_remove_absent constSha idRepr idCipher idCipher (fun _ => none) (fun _ => [])
     [65] none [66] (List.replicate 16 0) [] rfl rfl⟩

/-- C9: loading from a path at which no container file exists returns the
empty mapping and does not fail. -/
theorem C9_load_first_use (sha strRepr : PyBytes → PyBytes)
    (D : PyBytes → PyBytes → PyBytes) (jsonLoads : PyStr → Option VMap)
    (key : PyStr) :
    _load sha strRepr D jsonLoads key none = .ok [] := rfl

/-- C10: appended 16-byte blocks go undetected.  decrypt_file truncates
the decrypted buffer to the stored length before UTF-8 decoding and digest
verification, so decrypting a valid container with any extra whole blocks
appended succeeds and returns the original plaintext — the appended data
is silently discarded. -/
theorem C10_append_undetected (sha strRepr : PyBytes → PyBytes)
    (E D : PyBytes → PyBytes → PyBytes) (key p : PyStr) (iv : PyBytes)
    (csE csD : Nat) (g c : PyBytes)
    (hED : ∀ k b, b.length = 16 → D k (E k b) = b)
    (hE16 : ∀ k b, b.length = 16 → (E k b).length = 16)
    (hsha32 : ∀ x, (sha x).length = 32)
    (hiv : iv.length = 16) (hasc : Ascii p) (hL : p.length < 2 ^ 64)
    (hcsE16 : csE % 16 = 0) (hcsE0 : 0 < csE)
    (hcsD16 : csD % 16 = 0) (hcsD0 : 0 < csD)
    (hg16 : g.length % 16 = 0) (hg : g ≠ [])
    (henc : encrypt_file sha strRepr E key p iv csE = some c) :
    decrypt_file sha strRepr D key (c ++ g) csD = .ok p := by
  rw [encrypt_file_ascii sha strRepr E key p iv csE hasc hcsE16 hcsE0] at henc
  injection henc with henc
  subst henc
  obtain ⟨hblocks16, hrechunk⟩ := encBody_blocks E (sha (utf8Encode key)) iv p
    (fun b hb => hE16 _ b hb) hiv
  have hbodymod :
      ((cbcEncBlocks E (sha (utf8Encode key)) iv (chunkstring (padChunk p) 16)).flatten).length
        % 16 = 0 := by
    rw [flatten_blocks16_length _ hblocks16]
    omega
  rw [List.append_assoc (packQ p.length ++ iv ++ check_please sha strRepr iv p) _ g]
  rw [decrypt_file_parse sha strRepr D key p.length iv (check_please sha strRepr iv p)
    _ csD hiv (hsha32 _) hL hcsD16 hcsD0
    (by rw [List.length_append]; omega)]
  rw [chunkstring_append (by norm_num) _ g (Nat.dvd_of_mod_eq_zero hbodymod), hrechunk,
    cbcDecBlocks_append,
    cbcDec_cbcEnc E D (sha (utf8Encode key)) (sha (utf8Encode key))
      (fun b hb => hED _ b hb) (fun b hb => hE16 _ b hb) _ iv hiv
      (chunkstring16_blocks (padChunk_length_mod p)),
    List.flatten_append, chunkstring_flatten (by norm_num) (padChunk p),
    List.take_append_of_le_length (length_le_padChunk p), padChunk_take p,
    utf8Decode_ascii hasc]
  simp

/-- C10 (witness): appending one garbage block to the concrete container
of the JSON text of the two code points 123, 125 still decrypts to it. -/
theorem C10_append_undetected_witness :
    encrypt_file constSha idRepr idCipher [65] [123, 125] (List.replicate 16 0) 16 =
        some (packQ 2 ++ List.replicate 16 0 ++ constSha []
          ++ ([123, 125] ++ List.replicate 14 32))
      ∧ (List.replicate 16 7 : PyBytes).length % 16 = 0
      ∧ decrypt_file constSha idRepr idCipher [65]
          ((packQ 2 ++ List.replicate 16 0 ++ constSha []
            ++ ([123, 125] ++ List.replicate 14 32)) ++ List.replicate 16 7) 16 =
          .ok [123, 125] :=
  ⟨by decide, by decide,
   C10_append_undetected constSha idRepr idCipher idCipher [65] [123, 125]
     (List.replicate 16 0) 16 16 (List.replicate 16 7) _
     (fun _ _ _ => rfl) (fun _ _ h => h) constSha_length
     (by decide) (by decide) (by decide) (by decide) (by decide) (by decide) (by decide)
     (by decide) (by decide) (by decide)⟩

/-- C2 (counterexample): flipping a single byte of the ciphertext region
does not always cause decrypt to fail.  In the valid container of the
two-code-point JSON text, flipping the byte at offset 71 — the last byte
of the final ciphertext block, which decrypts into the space padding —
leaves decryption succeeding: the truncation to the stored length discards
the altered pad byte and the digest still matches, so decrypt returns the
(original) plaintext instead of failing.  The cipher parameter is
instantiated with a permutation satisfying the CBC contract; no block
cipher can exclude such a flip absolutely, since an injective map on
16-byte blocks cannot separate every pair of blocks in every byte. -/
theorem C2_cex :
    encrypt_file constSha idRepr idCipher [65] [123, 125] (List.replicate 16 0) 24576 =
        some (packQ 2 ++ List.replicate 16 0 ++ constSha []
          ++ ([123, 125] ++ List.replicate 14 32))
      ∧ (packQ 2 ++ List.replicate 16 0 ++ constSha []
          ++ ([123, 125] ++ List.replicate 14 32)).getD 71 0 = 32
      ∧ decrypt_file constSha idRepr idCipher [65]
          ((packQ 2 ++ List.replicate 16 0 ++ constSha []
            ++ ([123, 125] ++ List.replicate 14 32)).set 71 33) 24576 = .ok [123, 125] := by
  decide

/-- C2 (amended): for a container produced by encrypt with key k and a
single byte changed at offset j (with a value different from the original
byte), (i) a change inside the 32-byte digest field (offsets 24-55) always
makes decrypt fail with IntegrityError; (ii) decrypt never silently
returns data different from the original plaintext — any successful
decrypt of the tampered container returns exactly p; (iii) a change in the
ciphertext region outside the final 16-byte block always makes decrypt
fail with DecodeError or IntegrityError.  A change inside the final block
may go undetected (see the counterexample), but by (ii) decrypt then
still returns the original plaintext. -/
theorem C2_tamper_amended (sha strRepr : PyBytes → PyBytes)
    (E D : PyBytes → PyBytes → PyBytes) (key p : PyStr) (iv c : PyBytes)
    (csE csD : Nat) (j v : Nat)
    (hED : ∀ k b, b.length = 16 → D k (E k b) = b)
    (hE16 : ∀ k b, b.length = 16 → (E k b).length = 16)
    (hD16 : ∀ k b, b.length = 16 → (D k b).length = 16)
    (hDinj : ∀ k, Function.Injective (D k))
    (hshaInj : Function.Injective sha)
    (hsha32 : ∀ x, (sha x).length = 32)
    (hiv : iv.length = 16) (hasc : Ascii p) (hL : p.length < 2 ^ 64)
    (hcsE16 : csE % 16 = 0) (hcsE0 : 0 < csE)
    (hcsD16 : csD % 16 = 0) (hcsD0 : 0 < csD)
    (henc : encrypt_file sha strRepr E key p iv csE = some c)
    (hj24 : 24 ≤ j) (hjlt : j < c.length) (hv : v ≠ c.getD j 0) :
    (j < 56 → decrypt_file sha strRepr D key (c.set j v) csD = .error .contentNotEqual)
    ∧ (∀ q, decrypt_file sha strRepr D key (c.set j v) csD = .ok q → q = p)
    ∧ (56 ≤ j → j < c.length - 16 →
        ∃ e, decrypt_file sha strRepr D key (c.set j v) csD = .error e
          ∧ (e = PyErr.unicodeDecodeError ∨ e = PyErr.contentNotEqual)) := by
  rw [encrypt_file_ascii sha strRepr E key p iv csE hasc hcsE16 hcsE0] at henc
  injection henc with henc
  subst henc
  set K := sha (utf8Encode key) with hK
  set chk := check_please sha strRepr iv p with hchkdef
  set encB := cbcEncBlocks E K iv (chunkstring (padChunk p) 16) with hencBdef
  set body := encB.flatten with hbodydef
  have hpblocks : ∀ b ∈ chunkstring (padChunk p) 16, b.length = 16 :=
    chunkstring16_blocks (padChunk_length_mod p)
  have hencB16 : ∀ b ∈ encB, b.length = 16 :=
    cbcEncBlocks_blocks16 E K (fun b hb => hE16 K b hb) _ iv hiv hpblocks
  have hrechunk : chunkstring body 16 = encB := chunkstring_of_blocks _ hencB16
  have hbodylen : body.length = 16 * encB.length := flatten_blocks16_length _ hencB16
  have hbodymod : body.length % 16 = 0 := by omega
  have hchk32 : chk.length = 32 := hsha32 _
  have h24 : (packQ p.length ++ iv).length = 24 := by
    rw [List.length_append, packQ_length, hiv]
  have h56 : (packQ p.length ++ iv ++ chk).length = 56 := by
    rw [List.length_append, h24, hchk32]
  have hclen : (packQ p.length ++ iv ++ chk ++ body).length = 56 + body.length := by
    rw [List.length_append, h56]
  rw [hclen] at hjlt
  have hdecB : cbcDecBlocks D K iv encB = chunkstring (padChunk p) 16 :=
    cbcDec_cbcEnc E D K K (fun b hb => hED K b hb) (fun b hb => hE16 K b hb) _ iv hiv hpblocks
  have hgetj : (packQ p.length ++ iv ++ chk ++ body).getD j 0 =
      if j < 56 then chk.getD (j - 24) 0 else body.getD (j - 56) 0 := by
    rw [List.getD_eq_getElem?_getD]
    by_cases hj56 : j < 56
    · rw [if_pos hj56, List.getElem?_append_left (by omega),
        List.getElem?_append_right (by omega), h24, List.getD_eq_getElem?_getD]
    · rw [if_neg hj56, List.getElem?_append_right (by omega), h56,
        List.getD_eq_getElem?_getD]
  have hA : j < 56 → decrypt_file sha strRepr D key
      ((packQ p.length ++ iv ++ chk ++ body).set j v) csD = .error .contentNotEqual := by
    intro hj56
    have hset : (packQ p.length ++ iv ++ chk ++ body).set j v
        = packQ p.length ++ iv ++ chk.set (j - 24) v ++ body := by
      rw [List.set_append, if_pos (by omega : j < (packQ p.length ++ iv ++ chk).length),
        List.set_append, if_neg (by omega : ¬ j < (packQ p.length ++ iv).length), h24]
    have hchkne : chk.set (j - 24) v ≠ chk := by
      intro heq
      have h1 : (chk.set (j - 24) v)[j - 24]? = chk[j - 24]? := by rw [heq]
      rw [List.getElem?_set_self (by omega)] at h1
      apply hv
      rw [hgetj, if_pos hj56, List.getD_eq_getElem?_getD, ← h1]
      rfl
    rw [hset, decrypt_file_parse sha strRepr D key p.length iv (chk.set (j - 24) v) body csD
      hiv (by rw [List.length_set]; exact hchk32) hL hcsD16 hcsD0 hbodymod]
    rw [hrechunk, hdecB, chunkstring_flatten (by norm_num) (padChunk p), padChunk_take p,
      utf8Decode_ascii hasc]
    dsimp only
    rw [if_pos hchkne]
  have hB : ∀ q, decrypt_file sha strRepr D key
      ((packQ p.length ++ iv ++ chk ++ body).set j v) csD = .ok q → q = p := by
    intro q hdec
    by_cases hj56 : j < 56
    · rw [hA hj56] at hdec
      exact absurd hdec (by simp)
    · have hset : (packQ p.length ++ iv ++ chk ++ body).set j v
          = packQ p.length ++ iv ++ chk ++ body.set (j - 56) v := by
        rw [List.set_append, if_neg (by omega : ¬ j < (packQ p.length ++ iv ++ chk).length), h56]
      rw [hset] at hdec
      have hok := decrypt_file_ok sha strRepr D key _ csD q hdec
      obtain ⟨_, hiv2, hchk2, _⟩ := container_fields (packQ p.length) iv chk
        (body.set (j - 56) v) (packQ_length _) hiv hchk32
      rw [hchk2, hiv2, hchkdef] at hok
      exact (check_please_injective hshaInj iv hok).symm
  refine ⟨hA, hB, ?_⟩
  intro hj56 hjtop
  have hset : (packQ p.length ++ iv ++ chk ++ body).set j v
      = packQ p.length ++ iv ++ chk ++ body.set (j - 56) v := by
    rw [List.set_append, if_neg (by omega : ¬ j < (packQ p.length ++ iv ++ chk).length), h56]
  set m := j - 56 with hm
  have hmlt : m < body.length - 16 := by omega
  set i := m / 16 with hi
  set r := m % 16 with hr
  have hmir : m = 16 * i + r := by omega
  have hr16 : r < 16 := by omega
  have hiB : i < encB.length := by omega
  set P := encB.take i with hP
  set S := encB.drop (i + 1) with hS
  have hPlen : P.length = i := by
    rw [hP, List.length_take]
    omega
  have hPmem : ∀ b ∈ P, b.length = 16 := fun b hb => hencB16 b (List.mem_of_mem_take hb)
  have hSmem : ∀ b ∈ S, b.length = 16 := fun b hb => hencB16 b (List.mem_of_mem_drop hb)
  have hPBS : encB = P ++ encB[i] :: S := by
    rw [hP, hS]
    conv_lhs => rw [← List.take_append_drop i encB]
    rw [List.drop_eq_getElem_cons hiB]
  set B := encB[i] with hBdef
  have hB16 : B.length = 16 := hencB16 B (List.getElem_mem hiB)
  have hPflen : P.flatten.length = 16 * i := by rw [flatten_blocks16_length P hPmem, hPlen]
  have hbodyPBS : body = P.flatten ++ (B ++ S.flatten) := by
    calc body = encB.flatten := hbodydef
      _ = (P ++ B :: S).flatten := by rw [← hPBS]
      _ = P.flatten ++ (B ++ S.flatten) := by rw [List.flatten_append, List.flatten_cons]
  have hBr : body.getD m 0 = B.getD r 0 := by
    rw [hbodyPBS, List.getD_eq_getElem?_getD,
      List.getElem?_append_right (by rw [hPflen]; omega), hPflen]
    have hmi : m - 16 * i = r := by omega
    rw [hmi, List.getElem?_append_left (by omega), List.getD_eq_getElem?_getD]
  set B2 := B.set r v with hB2
  have hB2len : B2.length = 16 := by
    rw [hB2, List.length_set]
    exact hB16
  have hB2ne : B2 ≠ B := by
    intro heq
    have h1 : B2[r]? = B[r]? := by rw [heq]
    rw [hB2, List.getElem?_set_self (by omega)] at h1
    apply hv
    rw [hgetj, if_neg (by omega), hBr, List.getD_eq_getElem?_getD, ← h1]
    rfl
  have hsetbody : body.set m v = P.flatten ++ (B2 ++ S.flatten) := by
    rw [hbodyPBS, List.set_append, if_neg (by rw [hPflen]; omega), hPflen]
    have hmi : m - 16 * i = r := by omega
    rw [hmi, List.set_append, if_pos (by omega)]
  have hB2nenil : B2 ≠ [] := by
    intro h0
    rw [h0] at hB2len
    simp at hB2len
  have hchunkset : chunkstring (body.set m v) 16 = P ++ B2 :: S := by
    rw [hsetbody, chunkstring_append (by norm_num) _ _ (by omega),
      chunkstring_of_blocks P hPmem,
      chunkstring_append (by norm_num) B2 _ (by omega),
      chunkstring_single (by norm_num) B2 hB2nenil (by omega),
      chunkstring_of_blocks S hSmem]
    rfl
  rw [hset, decrypt_file_parse sha strRepr D key p.length iv chk (body.set m v) csD hiv
    hchk32 hL hcsD16 hcsD0 (by rw [List.length_set]; exact hbodymod)]
  rw [hchunkset]
  rcases hdec2 : utf8Decode (((cbcDecBlocks D K iv (P ++ B2 :: S)).flatten).take p.length)
    with _ | pl
  · exact ⟨.unicodeDecodeError, rfl, Or.inl rfl⟩
  · by_cases hcc : chk ≠ check_please sha strRepr iv pl
    · refine ⟨.contentNotEqual, ?_, Or.inr rfl⟩
      dsimp only
      rw [if_pos hcc]
    · exfalso
      have hchkeq := not_ne_iff.mp hcc
      rw [hchkdef] at hchkeq
      have hplp : pl = p := (check_please_injective hshaInj iv hchkeq).symm
      rw [hplp] at hdec2
      have hout2p : ((cbcDecBlocks D K iv (P ++ B2 :: S)).flatten).take p.length = p :=
        utf8Decode_ascii_sound _ p hdec2 hasc
      have horig : (cbcDecBlocks D K iv (P ++ B :: S)).flatten = padChunk p := by
        rw [← hPBS, hdecB, chunkstring_flatten (by norm_num)]
      set pL := P.getLastD iv with hpL
      have hpL16 : pL.length = 16 := getLastD_length16 P iv hiv hPmem
      set X := xorBytes (D K B) pL with hX
      set X2 := xorBytes (D K B2) pL with hX2
      have hX16 : X.length = 16 := by
        rw [hX, xorBytes_length, hD16 K B hB16, hpL16]
        exact min_self 16
      have hX2len : X2.length = 16 := by
        rw [hX2, xorBytes_length, hD16 K B2 hB2len, hpL16]
        exact min_self 16
      have hXne : X ≠ X2 := by
        intro heq
        have hDD : D K B = D K B2 :=
          xorBytes_right_injective (by rw [hD16 K B hB16, hpL16])
            (by rw [hD16 K B2 hB2len, hpL16]) heq
        exact hB2ne ((hDinj K hDD).symm)
      have hOP16 : ∀ b ∈ cbcDecBlocks D K iv P, b.length = 16 :=
        cbcDecBlocks_blocks16 D K (fun b hb => hD16 K b hb) P iv hiv hPmem
      have hOPlen : (cbcDecBlocks D K iv P).flatten.length = 16 * i := by
        rw [flatten_blocks16_length _ hOP16, cbcDecBlocks_length, hPlen]
      have hsplit : ∀ (Bx : PyBytes), (cbcDecBlocks D K iv (P ++ Bx :: S)).flatten
          = (cbcDecBlocks D K iv P).flatten
            ++ (xorBytes (D K Bx) pL ++ (cbcDecBlocks D K Bx S).flatten) := by
        intro Bx
        rw [cbcDecBlocks_append, List.flatten_append, cbcDecBlocks_cons, List.flatten_cons, hpL]
      obtain ⟨idx, hidx16, hidxne⟩ := exists_getElem?_ne (by rw [hX16, hX2len]) hXne
      rw [hX16] at hidx16
      have hposlt : 16 * i + idx < p.length := by
        have hpadflat : (padChunk p).length = 16 * encB.length := by
          have h1 : (padChunk p).length = (chunkstring (padChunk p) 16).flatten.length := by
            rw [chunkstring_flatten (by norm_num)]
          rw [h1, flatten_blocks16_length _ hpblocks, hencBdef, cbcEncBlocks_length]
        have hplt : 16 * encB.length < p.length + 16 := by
          rw [← hpadflat]
          exact padChunk_length_lt p
        omega
      have hstream : ∀ (Bx : PyBytes), Bx.length = 16 →
          ((cbcDecBlocks D K iv (P ++ Bx :: S)).flatten)[16 * i + idx]?
            = (xorBytes (D K Bx) pL)[idx]? := by
        intro Bx hBx
        rw [hsplit Bx, List.getElem?_append_right (by rw [hOPlen]; omega), hOPlen]
        have hsub : 16 * i + idx - 16 * i = idx := by omega
        rw [hsub, List.getElem?_append_left
          (by rw [xorBytes_length, hD16 K Bx hBx, hpL16]; omega)]
      have htake1 : p[16 * i + idx]? = X[idx]? := by
        conv_lhs => rw [← padChunk_take p]
        rw [List.getElem?_take, if_pos hposlt, ← horig]
        exact hstream B hB16
      have htake2 : p[16 * i + idx]? = X2[idx]? := by
        conv_lhs => rw [← hout2p]
        rw [List.getElem?_take, if_pos hposlt]
        exact hstream B2 hB2len
      exact hidxne (htake1 ▸ htake2)

/-- C2 (witness): the amended tamper theorem applied at offset 24 (the
first digest byte) of the concrete container, under the injective digest
stand-in. -/
theorem C2_tamper_amended_witness :
    encrypt_file pairSha idRepr idCipher [65] [123, 125] (List.replicate 16 0) 16
        = some nfcont
      ∧ 24 < nfcont.length
      ∧ nfcont.getD 24 0 + 1 ≠ nfcont.getD 24 0
      ∧ decrypt_file pairSha idRepr idCipher [65]
          (nfcont.set 24 (nfcont.getD 24 0 + 1)) 16 = .error .contentNotEqual := by
  have henc : encrypt_file pairSha idRepr idCipher [65] [123, 125]
      (List.replicate 16 0) 16 = some nfcont :=
    encrypt_file_ascii pairSha idRepr idCipher [65] [123, 125] (List.replicate 16 0) 16
      (by decide) (by decide) (by decide)
  have hc32 : (check_please pairSha idRepr (List.replicate 16 0) [123, 125]).length = 32 :=
    pairSha_length _
  have hjlt : 24 < nfcont.length := by
    rw [show nfcont = packQ 2 ++ List.replicate 16 0
        ++ check_please pairSha idRepr (List.replicate 16 0) [123, 125]
        ++ (cbcEncBlocks idCipher (pairSha (utf8Encode [65])) (List.replicate 16 0)
            (chunkstring (padChunk [123, 125]) 16)).flatten from rfl]
    simp only [List.length_append, packQ_length, List.length_replicate, hc32]
    omega
  refine ⟨henc, hjlt, by omega, ?_⟩
  exact (C2_tamper_amended pairSha idRepr idCipher idCipher [65] [123, 125]
    (List.replicate 16 0) nfcont 16 16 24 (nfcont.getD 24 0 + 1)
    (fun _ _ _ => rfl) (fun _ _ h => h) (fun _ _ h => h) (fun _ a b h => h)
    pairSha_injective pairSha_length (by decide) (by decide) (by decide)
    (by decide) (by decide) (by decide) (by decide) henc (by decide) hjlt
    (by omega)).1 (by decide)

end Mums
